import Mathlib

/-!
# pccore: the peripheral chain builder `buildmain.c`

A shallow embedding of `src/peripherals/buildmain.c` and of the descriptor
table of `src/peripherals/drivlist.h`.

* C strings are the lists of characters that precede the terminating NUL;
  they are carried as `String` and compared through `String.data`.
* The standard output of the generator is a list of `Line` values, one
  constructor per line that the C code prints; `Line.render` gives the text.
* `MX_PCPIN` comes from the generated board header `brddefs_c.h` and is a
  parameter `mx` of the model.
* Two places of `main` have no defined behaviour in C: `fscanf("%s", peri)`
  on a token of `PERILEN` or more characters, and the store
  `drividtbl[slot]` once `slot` has reached `NUMDRIVR`.  The model stops the
  run there with an `Exit` value of its own.
-/

namespace Pccore

/-! ## Constants of `buildmain.c` -/

/-- Maximum line length in the perilist config file (`MXPERILINE`). -/
def MXPERILINE : Nat := 120

/-- Maximum name length for a peripheral (`PERILEN`), the size of `peri`. -/
def PERILEN : Nat := 20

/-- Number of entries in the driver ID table (`NUMDRIVR`). -/
def NUMDRIVR : Nat := 16

/-! ## The descriptor table of `drivlist.h` -/

/-- Peripheral description, `struct PDESC`.  The `int` members hold the
non-negative values of the table and are natural numbers here. -/
structure PDESC where
  periname : String
  drivid : Nat
  incname : String
  dirs : Nat
  npins : Nat
  deriving DecidableEq, Repr

/-- The table `pdesc[]` of `drivlist.h`, row for row. -/
def pdesc : List PDESC := [
  ⟨"null", 1, "null", 0x0, 0⟩,
  ⟨"serout8", 2, "serout", 0xff, 8⟩,
  ⟨"qtr8", 3, "qtr8", 0xff, 8⟩,
  ⟨"qtr4", 4, "qtr4", 0xf, 4⟩,
  ⟨"ws2812", 5, "ws2812", 0xf, 4⟩,
  ⟨"rcrx", 6, "rcrx", 0xe, 4⟩,
  ⟨"serout4", 7, "serout", 0xf, 4⟩,
  ⟨"dproten", 8, "dproten", 0x8, 4⟩,
  ⟨"servo4", 9, "servo4", 0xf, 4⟩,
  ⟨"stepu", 10, "stepu", 0xf, 4⟩,
  ⟨"stepb", 11, "stepb", 0xf, 4⟩,
  ⟨"pwmout4", 12, "pgen16", 0xf, 4⟩,
  ⟨"quad2", 13, "quad2", 0x0, 4⟩,
  ⟨"pwmin4", 14, "pwmin4", 0x0, 4⟩,
  ⟨"ping4", 15, "ping4", 0xf, 4⟩,
  ⟨"pgen16", 16, "pgen16", 0xf, 4⟩,
  ⟨"irio", 17, "irio", 0x7, 4⟩,
  ⟨"pulse2", 18, "pulse2", 0xf, 4⟩,
  ⟨"touch4", 19, "count4", 0xf, 4⟩,
  ⟨"dc2", 20, "dc2", 0xf, 4⟩,
  ⟨"count4", 21, "count4", 0x0, 4⟩,
  ⟨"gpio4", 22, "gpio4", 0xf, 4⟩,
  ⟨"in4", 23, "in4", 0x0, 4⟩,
  ⟨"out4", 24, "out4", 0xf, 4⟩,
  ⟨"out4l", 25, "out4l", 0xf, 4⟩,
  ⟨"dpespi", 26, "dpespi", 0x7, 4⟩,
  ⟨"dpei2c", 27, "dpei2c", 0x7, 4⟩,
  ⟨"dplcd6", 28, "dplcd6", 0xf, 4⟩,
  ⟨"dpin32", 29, "dpin32", 0x7, 4⟩,
  ⟨"dpio8", 30, "dpio8", 0x7, 4⟩,
  ⟨"aamp", 31, "out4", 0xf, 4⟩,
  ⟨"dpdac8", 32, "dpespi", 0x7, 4⟩,
  ⟨"dpqpot", 33, "dpespi", 0x7, 4⟩,
  ⟨"dprtc", 34, "dpespi", 0x7, 4⟩,
  ⟨"dpavr", 35, "dpespi", 0x7, 4⟩,
  ⟨"dpadc812", 36, "dpadc12", 0x7, 4⟩,
  ⟨"dpslide4", 37, "dpadc12", 0x7, 4⟩,
  ⟨"dptif", 38, "dptif", 0x7, 4⟩,
  ⟨"dpus8", 39, "dpus8", 0x7, 4⟩,
  ⟨"rfob", 40, "rfob", 0xc, 4⟩,
  ⟨"dpout32", 41, "dpout32", 0xf, 4⟩,
  ⟨"bb4io", 42, "bb4io", 0x0, 0⟩,
  ⟨"axo2", 43, "axo2", 0x0, 0⟩,
  ⟨"tang4k", 44, "tang4k", 0x0, 0⟩,
  ⟨"tonegen", 45, "tonegen", 0xf, 4⟩,
  ⟨"stpxo2", 46, "stpxo2", 0x0, 0⟩,
  ⟨"basys3", 47, "basys3", 0x0, 0⟩]

/-- Number of rows of `pdesc`, the C expression
`sizeof(pdesc) / sizeof(struct PDESC)`. -/
def NPERI : Nat := pdesc.length

/-! ## The catalog search of `main` -/

/-- The libc function `strncmp` on C strings given by their characters: at
most `n` characters are compared, the end of a list stands for the
terminating NUL, and the result is the difference of the first pair of
characters that differ (0 when there is none). -/
def strncmp : List Char → List Char → Nat → Int
  | _, _, 0 => 0
  | [], [], _ + 1 => 0
  | [], b :: _, _ + 1 => 0 - (b.toNat : Int)
  | a :: _, [], _ + 1 => (a.toNat : Int)
  | a :: as, b :: bs, n + 1 =>
    if a = b then strncmp as bs n else (a.toNat : Int) - (b.toNat : Int)

/-- The loop `for (i = 0; i < NPERI; i++) if (0 == strncmp(peri,
pdesc[i].periname, PERILEN - 1)) break;` of `main`: the value of `i` when the
loop is left, which is `NPERI` when no row matches. -/
def findPeri (peri : String) : Nat :=
  pdesc.findIdx (fun d => strncmp peri.data d.periname.data (PERILEN - 1) == 0)

/-- The catalog search followed by the test `i == NPERI`: the row
`pdesc[i]` that `main` goes on with, or `none` on the path that reports an
unknown peripheral. -/
def lookup (peri : String) : Option PDESC :=
  if findPeri peri = NPERI then none else pdesc[findPeri peri]?

/-- The test `peri[0] == '#'` of `main`. -/
def isComment (peri : String) : Bool :=
  peri.data.head? == some '#'

/-! ## The text that the generator prints -/

/-- One line of the standard output of `buildmain`, one constructor for each
line that `perilist` and `main` print.  Numbers are kept as numbers; the text
is given by `Line.render`. -/
inductive Line where
  /-- Line `printf("\n")` -/
  | blank
  /-- Line `// Slot: %d   %s` -/
  | slotHdr (addr : Nat) (peri : String)
  /-- Line `wire p%02dSTB_O;` -/
  | wireSTB (addr : Nat)
  /-- Line `wire p%02dSTALL_O;` -/
  | wireSTALL (addr : Nat)
  /-- Line `wire p%02dACK_O;` -/
  | wireACK (addr : Nat)
  /-- Line `wire [7:0] p%02dDAT_I;` -/
  | wireDATI (addr : Nat)
  /-- Line `wire [7:0] p%02dDAT_O;` -/
  | wireDATO (addr : Nat)
  /-- Line `%s p00(CLK_O,...,bc0clocks,BRDIO,PCPIN);`, the board IO peripheral -/
  | boardInst (peri : String)
  /-- Line `assign p00STB_O = (bi0addr[11:8] == 0) ? 1'b1 : 1'b0;` -/
  | boardSTB
  /-- Line `tri [%d:0] p%02dpins;` -/
  | tri (hi : Int) (addr : Nat)
  /-- Line `%s p%02d(CLK_O,...,bc0clocks,p%02dpins);` -/
  | inst (peri : String) (addr : Nat)
  /-- Line `assign PCPIN[%d] = p%02dpins[%d];`: peripheral pin `i` drives `PCPIN[phys]` -/
  | pinOut (phys addr i : Nat)
  /-- Line `assign p%02dpins[%d] = PCPIN[%2d];`: `PCPIN[phys]` drives peripheral pin `i` -/
  | pinIn (addr i phys : Nat)
  /-- Line `assign p%02dSTB_O = (bi0addr[11:8] == %d) ? 1'b1 : 1'b0;` -/
  | stb (addr : Nat)
  /-- Line `assign bi0datin = p00DAT_O;` -/
  | datIn0
  /-- Line `assign p%02dDAT_I = p%02dDAT_O;`: the data input of slot `i` is driven
  by the data output of slot `j` -/
  | datLink (i j : Nat)
  /-- Line `assign p%02dDAT_I = bi0datout;` -/
  | datLast (k : Int)
  /-- Line `assign STALL_I = ` -/
  | stallHdr
  /-- Line `p%02dSTALL_O |` -/
  | stallTerm (i : Nat)
  /-- Line `p%02dSTALL_O;` -/
  | stallLast (i : Nat)
  /-- Line `assign ACK_I = ` -/
  | ackHdr
  /-- Line `p%02dACK_O |` -/
  | ackTerm (i : Nat)
  /-- Line `p%02dACK_O;` -/
  | ackLast (i : Nat)
  /-- Line `endmodule` -/
  | endmodule
  /-- Line `module perilist(core, id);` -/
  | tblModule
  /-- Line `input  [3:0] core;` -/
  | tblInput
  /-- Line `output [15:0] id;` -/
  | tblOutput
  /-- Line `assign id = ` -/
  | tblAssign
  /-- Line `(core == 4'h%1x) ? 16'h%04x : ` -/
  | idRow (i v : Nat)
  /-- Line `16'h%04x ; ` -/
  | idDefault (v : Nat)
  /-- Line `Not enough ROM strings`, printed on the standard output when the
  header is short -/
  | notEnoughRom
  deriving DecidableEq, Repr

/-- Pad `s` on the left with the character `c` up to the width `w`. -/
def padLeft (c : Char) (w : Nat) (s : String) : String :=
  String.mk (List.replicate (w - s.length) c) ++ s

/-- The conversion `%d` of `printf`. -/
def fmtD (n : Int) : String :=
  if n < 0 then "-" ++ toString n.natAbs else toString n.natAbs

/-- The conversion `%02d` of `printf`: zeros fill the field after the sign. -/
def fmt02d (n : Int) : String :=
  if n < 0 then "-" ++ padLeft '0' 1 (toString n.natAbs)
  else padLeft '0' 2 (toString n.natAbs)

/-- The conversion `%2d` of `printf`: blanks fill the field. -/
def fmt2d (n : Int) : String :=
  padLeft ' ' 2 (fmtD n)

/-- The conversion `%1x` of `printf` on a non-negative value. -/
def fmt1x (n : Nat) : String :=
  String.mk (Nat.toDigits 16 n)

/-- The conversion `%04x` of `printf` on a non-negative value. -/
def fmt04x (n : Nat) : String :=
  padLeft '0' 4 (String.mk (Nat.toDigits 16 n))

/-- The text of a line, without its newline, as the `printf` calls of
`buildmain.c` write it. -/
def Line.render : Line → String
  | .blank => ""
  | .slotHdr addr peri => "// Slot: " ++ fmtD addr ++ "   " ++ peri
  | .wireSTB addr =>
    "    wire p" ++ fmt02d addr ++ "STB_O;        // ==1 if this peri is being addressed"
  | .wireSTALL addr =>
    "    wire p" ++ fmt02d addr ++ "STALL_O;      // ==1 if we need more clk cycles"
  | .wireACK addr =>
    "    wire p" ++ fmt02d addr ++ "ACK_O;        // ==1 for peri to acknowledge transfer"
  | .wireDATI addr =>
    "    wire [7:0] p" ++ fmt02d addr ++ "DAT_I;  // Data INto the peripheral;"
  | .wireDATO addr =>
    "    wire [7:0] p" ++ fmt02d addr
      ++ "DAT_O;  // Data OUTput from the peripheral, = DAT_I if not us."
  | .boardInst peri =>
    "    " ++ peri ++ " p00(CLK_O,WE_O,TGA_O,p00STB_O,ADR_O[7:0],p00STALL_O,"
      ++ "p00ACK_O,p00DAT_I,p00DAT_O,bc0clocks,BRDIO,PCPIN);"
  | .boardSTB => "    assign p00STB_O = (bi0addr[11:8] == 0) ? 1\x27b1 : 1\x27b0;"
  | .tri hi addr => "    tri [" ++ fmtD hi ++ ":0] p" ++ fmt02d addr ++ "pins;"
  | .inst peri addr =>
    "    " ++ peri ++ " p" ++ fmt02d addr ++ "(CLK_O,WE_O,TGA_O,p" ++ fmt02d addr
      ++ "STB_O,ADR_O[7:0]," ++ "p" ++ fmt02d addr ++ "STALL_O,p" ++ fmt02d addr
      ++ "ACK_O,p" ++ fmt02d addr ++ "DAT_I,p" ++ fmt02d addr ++ "DAT_O,"
      ++ "bc0clocks,p" ++ fmt02d addr ++ "pins);"
  | .pinOut phys addr i =>
    "    assign PCPIN[" ++ fmtD phys ++ "] = p" ++ fmt02d addr ++ "pins[" ++ fmtD i ++ "];"
  | .pinIn addr i phys =>
    "    assign p" ++ fmt02d addr ++ "pins[" ++ fmtD i ++ "] = PCPIN[" ++ fmt2d phys ++ "];"
  | .stb addr =>
    "    assign p" ++ fmt02d addr ++ "STB_O = (bi0addr[11:8] == " ++ fmtD addr
      ++ ") ? 1\x27b1 : 1\x27b0;"
  | .datIn0 => "assign bi0datin = p00DAT_O;"
  | .datLink i j => "assign p" ++ fmt02d i ++ "DAT_I = p" ++ fmt02d j ++ "DAT_O;"
  | .datLast k => "assign p" ++ fmt02d k ++ "DAT_I = bi0datout;"
  | .stallHdr => "assign STALL_I = "
  | .stallTerm i => "              p" ++ fmt02d i ++ "STALL_O |"
  | .stallLast i => "              p" ++ fmt02d i ++ "STALL_O;"
  | .ackHdr => "assign ACK_I = "
  | .ackTerm i => "              p" ++ fmt02d i ++ "ACK_O |"
  | .ackLast i => "              p" ++ fmt02d i ++ "ACK_O;"
  | .endmodule => "endmodule"
  | .tblModule => "module perilist(core, id);"
  | .tblInput => "    input  [3:0] core;"
  | .tblOutput => "    output [15:0] id;"
  | .tblAssign => "    assign id = "
  | .idRow i v =>
    "            (core == 4\x27h" ++ fmt1x i ++ ") ? 16\x27h" ++ fmt04x v ++ " : "
  | .idDefault v => "                             16\x27h" ++ fmt04x v ++ " ; "
  | .notEnoughRom => "Not enough ROM strings"

/-- The line that `main` writes to `sources.tmp` for the module `incname`,
without its newline. -/
def includeLine (incname : String) : String :=
  "\x60include \x22../../../peripherals/" ++ incname ++ ".v\x22"

/-! ## `perilist` -/

/-- The pin loop of `perilist`,
`for (i = 0; i < numpins; i++) { if (startpin + 1 > MX_PCPIN) break; ... }`,
with `n` the number of rounds left and `i` the loop index.  The direction
test is `dirs & (1<<i)`. -/
def pinLoop (mx : Int) (addr startpin dirs : Nat) : Nat → Nat → List Line
  | 0, _ => []
  | n + 1, i =>
    if (startpin : Int) + 1 > mx then []
    else
      (if dirs &&& (1 <<< i) ≠ 0 then Line.pinOut (startpin + i) addr i
        else Line.pinIn addr i (startpin + i))
        :: pinLoop mx addr startpin dirs n (i + 1)

/-- The lines printed by one call `perilist(addr, startpin, dirs, numpins,
peri)`.  Slot 0 is the board IO peripheral and has its own invocation. -/
def perilist (mx : Int) (addr startpin dirs numpins : Nat) (peri : String) : List Line :=
  [Line.blank, Line.slotHdr addr peri, Line.wireSTB addr, Line.wireSTALL addr,
    Line.wireACK addr, Line.wireDATI addr, Line.wireDATO addr]
  ++ (if addr = 0 then [Line.boardInst peri, Line.boardSTB]
      else
        [Line.tri ((numpins : Int) - 1) addr, Line.inst peri addr]
        ++ pinLoop mx addr startpin dirs numpins 0
        ++ [Line.stb addr])

/-! ## `main` -/

/-- The arguments of one call of `perilist`, recorded in call order. -/
structure Call where
  addr : Nat
  startpin : Nat
  dirs : Nat
  numpins : Nat
  peri : String
  deriving DecidableEq, Repr

/-- The variables of `main` that the peripheral loop reads and writes, with
the two output streams and the record of the `perilist` calls made so far. -/
structure MainState where
  /-- Variable `slot`: "First peripheral is at address 0". -/
  slot : Nat
  /-- Variable `pin`: "Pins are numbered from zero". -/
  pin : Nat
  /-- Array `drividtbl[NUMDRIVR]`: driver ID for each peripheral. -/
  drividtbl : List Nat
  /-- Standard output, oldest line first. -/
  stdout : List Line
  /-- File `sources.tmp`: the `incname` of each include line written. -/
  sources : List String
  /-- Calls of `perilist`, oldest first. -/
  calls : List Call
  deriving DecidableEq, Repr

/-- How a run of `main` ends. -/
inductive Exit where
  /-- Statement `exit(0)` at the end of `main`. -/
  | success
  /-- Message "Not enough ROM strings" and `exit(1)`. -/
  | notEnoughRom
  /-- Message "FATAL: ...: Unknown peripheral: %s" on stderr and `exit(1)`. -/
  | unknownPeripheral (peri : String)
  /-- No defined behaviour: `fscanf("%s", peri)` stores a token of `PERILEN`
  or more characters and its NUL in the `PERILEN` bytes of `peri`. -/
  | periOverrun (peri : String)
  /-- No defined behaviour: the store `drividtbl[slot]` with `slot` not below
  `NUMDRIVR`. -/
  | tableOverrun (slot : Nat)
  deriving DecidableEq, Repr

/-- The exit status of the process, when the run has one. -/
def Exit.code : Exit → Option Nat
  | .success => some 0
  | .notEnoughRom => some 1
  | .unknownPeripheral _ => some 1
  | .periOverrun _ => none
  | .tableOverrun _ => none

/-- The text of the diagnostic on stderr, for the program name `argv0`. -/
def Exit.diagnostic (argv0 : String) : Exit → Option String
  | .unknownPeripheral peri => some ("FATAL: " ++ argv0 ++ ": Unknown peripheral: " ++ peri)
  | _ => none

/-- The state in front of the peripheral loop: `slot = 0`, `pin = 0`, and the
table of driver IDs set to zero. -/
def initState : MainState :=
  { slot := 0, pin := 0, drividtbl := List.replicate NUMDRIVR 0,
    stdout := [], sources := [], calls := [] }

/-- Lines 135 to 140 of `buildmain.c`, for the catalog row `d` that was found:
the call `perilist(slot, pin, d.dirs, d.npins, d.incname)` and, when `slot`
is not 0, the include line for `d.incname` in `sources.tmp`. -/
def emit (mx : Int) (d : PDESC) (st : MainState) : MainState :=
  { st with
    stdout := st.stdout ++ perilist mx st.slot st.pin d.dirs d.npins d.incname
    calls := st.calls ++ [⟨st.slot, st.pin, d.dirs, d.npins, d.incname⟩]
    sources := if st.slot ≠ 0 then st.sources ++ [d.incname] else st.sources }

/-- Lines 143 to 147 of `buildmain.c`: `drividtbl[slot] = d.drivid;
slot = slot + 1; pin = pin + d.npins;`, for `slot < NUMDRIVR`. -/
def advance (d : PDESC) (st : MainState) : MainState :=
  { st with
    drividtbl := st.drividtbl.set st.slot d.drivid
    slot := st.slot + 1
    pin := st.pin + d.npins }

/-- The loop `while (1)` of `main` over the tokens that the successive
`fscanf(pdescfile, "%s", peri)` calls deliver; the empty list is the `EOF`
return, which leaves the loop (the branch `ret < 0` after it cannot be taken:
`EOF` is the only negative return).  The result is the state together with
the way the run ended inside the loop, `none` when the loop was left by
`break`.  A token of `PERILEN` or more characters overruns `peri` in the
`fscanf` call, before the test for a comment; the store `drividtbl[slot]`
comes after the `perilist` call and the write to `sources.tmp`. -/
def mainLoop (mx : Int) : List String → MainState → MainState × Option Exit
  | [], st => (st, none)
  | peri :: rest, st =>
    if PERILEN ≤ peri.length then (st, some (Exit.periOverrun peri))
    else if isComment peri then mainLoop mx rest st
    else
      match lookup peri with
      | none => (st, some (Exit.unknownPeripheral peri))
      | some d =>
        if NUMDRIVR ≤ st.slot then (emit mx d st, some (Exit.tableOverrun st.slot))
        else mainLoop mx rest (advance d (emit mx d st))

/-- The links between `DAT_I` and `DAT_O` and the composite stall and ack
lines, printed after the loop for the final value of `slot`. -/
def stitch (slot : Nat) : List Line :=
  [Line.blank, Line.datIn0, Line.blank]
  ++ (List.range (slot - 1)).map (fun i => Line.datLink i (i + 1))
  ++ [Line.datLast ((slot : Int) - 1)]
  ++ [Line.blank, Line.stallHdr]
  ++ (List.range (slot - 1)).map Line.stallTerm
  ++ [Line.stallLast (slot - 1)]
  ++ [Line.blank, Line.ackHdr]
  ++ (List.range (slot - 1)).map Line.ackTerm
  ++ [Line.ackLast (slot - 1)]
  ++ [Line.blank, Line.endmodule, Line.blank]

/-- The module `perilist(core, id)` with the list of peripheral driver IDs:
a comparison row for each `i < NUMDRIVR - 1` and a last row without a
comparison for `drividtbl[NUMDRIVR - 1]`. -/
def idTable (drividtbl : List Nat) : List Line :=
  [Line.blank, Line.tblModule, Line.tblInput, Line.tblOutput, Line.tblAssign]
  ++ (List.range (NUMDRIVR - 1)).map (fun i => Line.idRow i (drividtbl.getD i 0))
  ++ [Line.idDefault (drividtbl.getD (NUMDRIVR - 1) 0)]
  ++ [Line.endmodule, Line.blank]

/-- The result of a run: how it ended and the final state. -/
structure Run where
  exit : Exit
  st : MainState
  deriving DecidableEq, Repr

/-- Function `main` from the initialisation of `drividtbl` on, for the
board bound `mx` (`MX_PCPIN`) and the tokens of the configuration file that
follow the eight header lines. -/
def main (mx : Int) (toks : List String) : Run :=
  match mainLoop mx toks initState with
  | (st, some e) => ⟨e, st⟩
  | (st, none) =>
    ⟨Exit.success, { st with stdout := st.stdout ++ stitch st.slot ++ idTable st.drividtbl }⟩

/-! ## Reading the configuration file -/

/-- The characters that one `fgets` call with room for `k` characters takes
from the input, and the input it leaves: reading stops after a newline, at
the end of the input, or when `k` characters are read. -/
def fgetsRead : Nat → List Char → List Char × List Char
  | 0, cs => ([], cs)
  | _ + 1, [] => ([], [])
  | k + 1, c :: cs =>
    if c = Char.ofNat 10 then ([c], cs)
    else (c :: (fgetsRead k cs).1, (fgetsRead k cs).2)

/-- The libc function `fgets(line, n, stream)`: at most `n - 1` characters
are read; the result is `none` (a null pointer) when the input is at its end
and no character was read. -/
def fgets (n : Nat) : List Char → Option (List Char × List Char)
  | [] => none
  | c :: cs => some (fgetsRead (n - 1) (c :: cs))

/-- The loop `for (j = 0; j < 8; j++) if (0 == fgets(line, MXPERILINE-1,
pdescfile)) ...` of `main`, with `j` rounds left: the input after the header,
or `none` when a `fgets` call returns the null pointer. -/
def skipLines : Nat → List Char → Option (List Char)
  | 0, cs => some cs
  | j + 1, cs =>
    match fgets (MXPERILINE - 1) cs with
    | none => none
    | some r => skipLines j r.2

/-- The libc function `isspace` in the C locale: blank, tab, newline,
vertical tab, form feed, carriage return. -/
def isspace (c : Char) : Bool :=
  c.toNat = 32 || (9 ≤ c.toNat && c.toNat ≤ 13)

/-- One call `fscanf(pdescfile, "%s", peri)`: white space is skipped, then
the characters up to the next white space or the end of the input are
stored.  The result is `none` for the return value `EOF`, when the input ends
before a character that is not white space. -/
def fscanfS (input : List Char) : Option (String × List Char) :=
  match input.dropWhile isspace with
  | [] => none
  | c :: cs =>
    some (String.mk ((c :: cs).takeWhile (fun x => !isspace x)),
      (c :: cs).dropWhile (fun x => !isspace x))

/-- The strings that at most `fuel` successive `fscanf` calls deliver before
`EOF`. -/
def tokensFuel : Nat → List Char → List String
  | 0, _ => []
  | fuel + 1, input =>
    match fscanfS input with
    | none => []
    | some r => r.1 :: tokensFuel fuel r.2

/-- The strings that the successive `fscanf` calls deliver on `input` up to
`EOF`.  Each call takes at least one character, so `input.length` calls
reach the end. -/
def tokens (input : List Char) : List String :=
  tokensFuel input.length input

/-- Function `main` from the header loop on, for the content `text` of the
configuration file: the eight `fgets` calls, then the peripheral loop on the
rest of the file. -/
def mainOnText (mx : Int) (text : List Char) : Run :=
  match skipLines 8 text with
  | none => ⟨Exit.notEnoughRom, { initState with stdout := [Line.notEnoughRom] }⟩
  | some rest => main mx (tokens rest)

/-! ## The accepted names and their descriptors -/

/-- The tokens that `main` does not skip as comments, in input order. -/
def names (toks : List String) : List String :=
  toks.filter (fun t => !isComment t)

/-- The catalog rows that the catalog search finds for the accepted names,
in input order. -/
def descs (toks : List String) : List PDESC :=
  (names toks).filterMap lookup

/-- The lines of one recorded `perilist` call. -/
def perilistOf (mx : Int) (c : Call) : List Line :=
  perilist mx c.addr c.startpin c.dirs c.numpins c.peri

/-- The `perilist` calls for the rows `ds`, the first of them made with
`slot` and `pin`. -/
def callsFrom (slot pin : Nat) : List PDESC → List Call
  | [] => []
  | d :: ds => ⟨slot, pin, d.dirs, d.npins, d.incname⟩ :: callsFrom (slot + 1) (pin + d.npins) ds

/-- One round of the loop body after another, for the rows `ds`. -/
def allocate (mx : Int) : List PDESC → MainState → MainState
  | [], st => st
  | d :: ds, st => allocate mx ds (advance d (emit mx d st))

/-- The driver ID that row `k` of the table stands for: the ID of the `k`-th
row of `ds`, and 0 beyond the end of `ds`. -/
def rowValue (ds : List PDESC) (k : Nat) : Nat :=
  match ds[k]? with
  | some d => d.drivid
  | none => 0

/-! ## Reading the output -/

/-- The lines that `perilist` can print. -/
def Line.inPerilist : Line → Bool
  | .blank | .slotHdr _ _ | .wireSTB _ | .wireSTALL _ | .wireACK _ | .wireDATI _
  | .wireDATO _ | .boardInst _ | .boardSTB | .tri _ _ | .inst _ _ | .pinOut _ _ _
  | .pinIn _ _ _ | .stb _ => true
  | _ => false

/-- The rows of the driver ID table: the comparison rows and the last row. -/
def Line.isTableRow : Line → Bool
  | .idRow _ _ | .idDefault _ => true
  | _ => false

/-- The assignments that link the data buses. -/
def Line.isDataLink : Line → Bool
  | .datIn0 | .datLink _ _ | .datLast _ => true
  | _ => false

/-- The terms of the composite stall line. -/
def Line.isStall : Line → Bool
  | .stallTerm _ | .stallLast _ => true
  | _ => false

/-- The terms of the composite ack line. -/
def Line.isAck : Line → Bool
  | .ackTerm _ | .ackLast _ => true
  | _ => false

/-- The slot index `NN` of the term `pNNSTALL_O` or `pNNACK_O` on a line. -/
def Line.term : Line → Option Nat
  | .stallTerm i | .stallLast i | .ackTerm i | .ackLast i => some i
  | _ => none

/-- The lines of a composite expression that end with the operator `|`. -/
def Line.hasOr : Line → Bool
  | .stallTerm _ | .ackTerm _ => true
  | _ => false

/-- The index of the physical pin `PCPIN[...]` that a pin binding names. -/
def Line.physPin : Line → Option Nat
  | .pinOut phys _ _ => some phys
  | .pinIn _ _ phys => some phys
  | _ => none

/-- The module instantiation on a line: the slot index and the module name. -/
def Line.instOf : Line → Option (Nat × String)
  | .boardInst peri => some (0, peri)
  | .inst peri addr => some (addr, peri)
  | _ => none

/-- The declaration of a pin bus on a line: the upper index of its range and
the slot index. -/
def Line.triOf : Line → Option (Int × Nat)
  | .tri hi addr => some (hi, addr)
  | _ => none

/-- The address decode on a line: the slot index of the strobe and the value
that `bi0addr[11:8]` is compared with. -/
def Line.stbOf : Line → Option (Nat × Nat)
  | .boardSTB => some (0, 0)
  | .stb addr => some (addr, addr)
  | _ => none

/-- The number of bits of a Verilog range `[hi:lo]`. -/
def rangeWidth (hi lo : Int) : Nat :=
  (hi - lo).natAbs + 1

/-- The lines of a list of header lines, each with its newline. -/
def unlines (ls : List (List Char)) : List Char :=
  ls.flatMap (fun l => l ++ [Char.ofNat 10])

/-- The lines that `main` can print after the loop: the links, the composite
lines and the table. -/
def Line.afterLoop : Line → Bool
  | .blank | .datIn0 | .datLink _ _ | .datLast _ | .stallHdr | .stallTerm _
  | .stallLast _ | .ackHdr | .ackTerm _ | .ackLast _ | .endmodule | .tblModule
  | .tblInput | .tblOutput | .tblAssign | .idRow _ _ | .idDefault _ => true
  | _ => false

/-- The pin bindings. -/
def Line.isPin : Line → Bool
  | .pinOut _ _ _ | .pinIn _ _ _ => true
  | _ => false

/-- The slot whose data input `pNNDAT_I` a data link assigns. -/
def Line.datInOf : Line → Option Int
  | .datLink i _ => some (i : Int)
  | .datLast k => some k
  | _ => none

/-- The slot whose data output `pNNDAT_O` a data link reads. -/
def Line.datOutOf : Line → Option Nat
  | .datIn0 => some 0
  | .datLink _ j => some j
  | _ => none

/-- The values of `MX_PCPIN` in the board headers
`src/fpgaboards/*/brddefs.h`: 59 for `axelxo2`, 31 for `baseboard4`, 31 for
`basys3` and 33 for `stepxo2`. -/
def boardBounds : List Int := [59, 31, 31, 33]

/-! ## Facts about `strncmp` and the catalog -/

theorem char_eq_of_toNat_eq {a b : Char} (h : a.toNat = b.toNat) : a = b :=
  Char.ext (UInt32.ext h)

theorem strncmp_self (a : List Char) (n : Nat) : strncmp a a n = 0 := by
  induction a generalizing n with
  | nil => cases n <;> simp [strncmp]
  | cons c cs ih => cases n <;> simp [strncmp, ih]

theorem eq_of_strncmp_eq_zero (a b : List Char) (n : Nat)
    (ha : Char.ofNat 0 ∉ a) (hb : Char.ofNat 0 ∉ b) (hlen : b.length < n)
    (h : strncmp a b n = 0) : a = b := by
  induction a generalizing b n with
  | nil =>
    cases b with
    | nil => rfl
    | cons y ys =>
      cases n with
      | zero => simp at hlen
      | succ m =>
        exfalso
        have hy : y.toNat = 0 := by
          simp only [strncmp] at h
          omega
        have hy0 : y = Char.ofNat 0 := char_eq_of_toNat_eq hy
        exact hb (by simp [hy0])
  | cons x xs ih =>
    cases n with
    | zero => simp at hlen
    | succ m =>
      cases b with
      | nil =>
        exfalso
        have hx : x.toNat = 0 := by
          simp only [strncmp] at h
          omega
        have hx0 : x = Char.ofNat 0 := char_eq_of_toNat_eq hx
        exact ha (by simp [hx0])
      | cons y ys =>
        simp only [strncmp] at h
        by_cases hxy : x = y
        · subst hxy
          simp only [if_true] at h
          have hxs : Char.ofNat 0 ∉ xs := fun hm => ha (List.mem_cons_of_mem _ hm)
          have hys : Char.ofNat 0 ∉ ys := fun hm => hb (List.mem_cons_of_mem _ hm)
          have hl : ys.length < m := by
            simp only [List.length_cons] at hlen
            omega
          rw [ih ys m hxs hys hl h]
        · exfalso
          simp only [hxy, if_false] at h
          exact hxy (char_eq_of_toNat_eq (by omega))

/-- Every catalog name is shorter than the `PERILEN - 1` characters that
the search compares, and holds no NUL. -/
theorem pdesc_names_short :
    ∀ d ∈ pdesc, d.periname.length < PERILEN - 1 ∧ Char.ofNat 0 ∉ d.periname.data := by
  decide

/-- The search finds every catalog row under its own name. -/
theorem lookup_periname : ∀ d ∈ pdesc, lookup d.periname = some d := by
  decide

theorem lookup_some_imp (tok : String) (hnul : Char.ofNat 0 ∉ tok.data) (d : PDESC)
    (h : lookup tok = some d) : d ∈ pdesc ∧ d.periname = tok := by
  unfold lookup at h
  split at h
  · cases h
  · have hm : d ∈ pdesc := List.getElem?_mem h
    have hp := List.findIdx_of_getElem?_eq_some h
    have hz : strncmp tok.data d.periname.data (PERILEN - 1) = 0 := by
      simpa using hp
    have hs := pdesc_names_short d hm
    have hl : d.periname.data.length < PERILEN - 1 := hs.1
    exact ⟨hm, (String.ext (eq_of_strncmp_eq_zero _ _ _ hnul hs.2 hl hz)).symm⟩

theorem lookup_eq_some_iff (tok : String) (hnul : Char.ofNat 0 ∉ tok.data) (d : PDESC) :
    lookup tok = some d ↔ d ∈ pdesc ∧ d.periname = tok := by
  constructor
  · exact lookup_some_imp tok hnul d
  · rintro ⟨hm, rfl⟩
    exact lookup_periname d hm

theorem lookup_eq_none_iff (tok : String) (hnul : Char.ofNat 0 ∉ tok.data) :
    lookup tok = none ↔ ∀ d ∈ pdesc, d.periname ≠ tok := by
  constructor
  · intro h d hm hd
    have := lookup_periname d hm
    rw [hd, h] at this
    cases this
  · intro h
    cases hl : lookup tok with
    | none => rfl
    | some d =>
      have := lookup_some_imp tok hnul d hl
      exact absurd this.2 (h d this.1)

/-! ## The loop on valid input -/

theorem names_cons_comment (t : String) (ts : List String) (h : isComment t = true) :
    names (t :: ts) = names ts := by
  simp [names, h]

theorem names_cons_name (t : String) (ts : List String) (h : isComment t = false) :
    names (t :: ts) = t :: names ts := by
  simp [names, h]

theorem names_append (xs ys : List String) : names (xs ++ ys) = names xs ++ names ys := by
  simp [names]

theorem descs_cons_comment (t : String) (ts : List String) (h : isComment t = true) :
    descs (t :: ts) = descs ts := by
  simp [descs, names_cons_comment t ts h]

theorem descs_cons_name (t : String) (ts : List String) (d : PDESC)
    (h : isComment t = false) (hd : lookup t = some d) :
    descs (t :: ts) = d :: descs ts := by
  simp [descs, names_cons_name t ts h, List.filterMap_cons, hd]

/-- On valid names the descriptors are catalog rows, one for each name and
under that name. -/
theorem descs_valid (toks : List String)
    (hvalid : ∀ t ∈ names toks, ∃ d ∈ pdesc, d.periname = t) :
    (descs toks).map PDESC.periname = names toks ∧ ∀ d ∈ descs toks, d ∈ pdesc := by
  unfold descs
  generalize names toks = l at hvalid
  induction l with
  | nil => simp
  | cons t ts ih =>
    obtain ⟨d, hm, hd⟩ := hvalid t (List.mem_cons_self _ _)
    have hl : lookup t = some d := by
      rw [← hd]
      exact lookup_periname d hm
    have ih2 := ih (fun u hu => hvalid u (List.mem_cons_of_mem _ hu))
    simp only [List.filterMap_cons, hl, List.map_cons, hd, ih2.1, List.mem_cons, true_and]
    rintro e (rfl | he)
    · exact hm
    · exact ih2.2 e he

theorem descs_length (toks : List String)
    (hvalid : ∀ t ∈ names toks, ∃ d ∈ pdesc, d.periname = t) :
    (descs toks).length = (names toks).length := by
  have h := congrArg List.length (descs_valid toks hvalid).1
  simpa using h

/-- The loop runs through a valid stretch `pre` of tokens without leaving
`main`, one round of the loop body for each accepted name. -/
theorem mainLoop_append (mx : Int) (pre rest : List String) (st : MainState)
    (hfit : ∀ t ∈ pre, t.length < PERILEN)
    (hvalid : ∀ t ∈ names pre, ∃ d ∈ pdesc, d.periname = t)
    (hcap : st.slot + (names pre).length ≤ NUMDRIVR) :
    mainLoop mx (pre ++ rest) st = mainLoop mx rest (allocate mx (descs pre) st) := by
  induction pre generalizing st with
  | nil => simp [descs, names, allocate]
  | cons t ts ih =>
    have ht : ¬ PERILEN ≤ t.length := Nat.not_le.mpr (hfit t (List.mem_cons_self _ _))
    have hfit2 : ∀ u ∈ ts, u.length < PERILEN := fun u hu => hfit u (List.mem_cons_of_mem _ hu)
    cases hc : isComment t with
    | true =>
      rw [names_cons_comment t ts hc] at hvalid hcap
      rw [descs_cons_comment t ts hc]
      simp only [List.cons_append, mainLoop, ht, hc, if_true, if_false]
      exact ih st hfit2 hvalid hcap
    | false =>
      rw [names_cons_name t ts hc] at hvalid hcap
      obtain ⟨d, hm, hd⟩ := hvalid t (List.mem_cons_self _ _)
      have hl : lookup t = some d := by
        rw [← hd]
        exact lookup_periname d hm
      rw [descs_cons_name t ts d hc hl]
      have hs : ¬ NUMDRIVR ≤ st.slot := by
        simp only [List.length_cons] at hcap
        omega
      simp only [List.cons_append, mainLoop, ht, hc, hl, hs, if_false, allocate]
      apply ih
      · exact hfit2
      · exact fun u hu => hvalid u (List.mem_cons_of_mem _ hu)
      · simp only [advance, emit, List.length_cons] at hcap ⊢
        omega

theorem allocate_slot (mx : Int) (ds : List PDESC) (st : MainState) :
    (allocate mx ds st).slot = st.slot + ds.length := by
  induction ds generalizing st with
  | nil => simp [allocate]
  | cons d ds ih =>
    simp only [allocate, ih, advance, emit, List.length_cons]
    omega

theorem allocate_calls (mx : Int) (ds : List PDESC) (st : MainState) :
    (allocate mx ds st).calls = st.calls ++ callsFrom st.slot st.pin ds := by
  induction ds generalizing st with
  | nil => simp [allocate, callsFrom]
  | cons d ds ih =>
    simp only [allocate, ih, advance, emit, callsFrom, List.append_assoc, List.singleton_append]

theorem allocate_stdout (mx : Int) (ds : List PDESC) (st : MainState) :
    (allocate mx ds st).stdout
      = st.stdout ++ (callsFrom st.slot st.pin ds).flatMap (perilistOf mx) := by
  induction ds generalizing st with
  | nil => simp [allocate, callsFrom]
  | cons d ds ih =>
    simp only [allocate, ih, advance, emit, callsFrom, List.append_assoc, List.flatMap_cons,
      perilistOf]

theorem allocate_drividtbl (mx : Int) (ds : List PDESC) (st : MainState) (front : List Nat)
    (m : Nat) (hfront : front.length = st.slot)
    (htbl : st.drividtbl = front ++ List.replicate (ds.length + m) 0) :
    (allocate mx ds st).drividtbl
      = front ++ ds.map PDESC.drivid ++ List.replicate m 0 := by
  induction ds generalizing st front with
  | nil => simpa [allocate] using htbl
  | cons d ds ih =>
    simp only [allocate]
    rw [ih (advance d (emit mx d st)) (front ++ [d.drivid])]
    · simp
    · simp [advance, emit, hfront]
    · simp only [advance, emit, htbl, ← hfront, List.length_cons]
      rw [show ds.length + 1 + m = (ds.length + m) + 1 by omega, List.replicate_succ]
      simp

theorem callsFrom_length (slot pin : Nat) (ds : List PDESC) :
    (callsFrom slot pin ds).length = ds.length := by
  induction ds generalizing slot pin with
  | nil => rfl
  | cons d ds ih => simp [callsFrom, ih]

theorem callsFrom_getElem? (slot pin : Nat) (ds : List PDESC) (k : Nat) (d : PDESC)
    (hd : ds[k]? = some d) :
    (callsFrom slot pin ds)[k]?
      = some ⟨slot + k, pin + ((ds.take k).map PDESC.npins).sum, d.dirs, d.npins, d.incname⟩ := by
  induction ds generalizing slot pin k with
  | nil => simp at hd
  | cons e es ih =>
    cases k with
    | zero =>
      simp only [List.getElem?_cons_zero, Option.some.injEq] at hd
      subst hd
      simp [callsFrom]
    | succ j =>
      simp only [List.getElem?_cons_succ] at hd
      simp only [callsFrom, List.getElem?_cons_succ, ih (slot + 1) (pin + e.npins) j hd,
        List.take_succ_cons, List.map_cons, List.sum_cons]
      congr 2 <;> omega

theorem callsFrom_addr (slot pin : Nat) (ds : List PDESC) :
    (callsFrom slot pin ds).map Call.addr = (List.range ds.length).map (fun k => slot + k) := by
  induction ds generalizing slot pin with
  | nil => rfl
  | cons d ds ih =>
    simp only [callsFrom, List.map_cons, ih, List.length_cons, List.range_succ_eq_map,
      List.map_map]
    refine congrArg₂ _ rfl (List.map_congr_left fun k _ => ?_)
    simp only [Function.comp]
    omega

/-- A run on valid input that fits the table ends with `exit(0)`; the loop
has done one round for each accepted name, and the links and the table
follow the `perilist` output. -/
theorem main_valid (mx : Int) (toks : List String)
    (hfit : ∀ t ∈ toks, t.length < PERILEN)
    (hvalid : ∀ t ∈ names toks, ∃ d ∈ pdesc, d.periname = t)
    (hcap : (names toks).length ≤ NUMDRIVR) :
    (main mx toks).exit = Exit.success ∧
    (main mx toks).st.calls = callsFrom 0 0 (descs toks) ∧
    (main mx toks).st.drividtbl
      = (descs toks).map PDESC.drivid
        ++ List.replicate (NUMDRIVR - (names toks).length) 0 ∧
    (main mx toks).st.stdout
      = (callsFrom 0 0 (descs toks)).flatMap (perilistOf mx)
        ++ stitch (names toks).length
        ++ idTable ((descs toks).map PDESC.drivid
            ++ List.replicate (NUMDRIVR - (names toks).length) 0) := by
  have hloop := mainLoop_append mx toks [] initState hfit hvalid
    (by simpa [initState] using hcap)
  have hlen := descs_length toks hvalid
  have htbl := allocate_drividtbl mx (descs toks) initState []
    (NUMDRIVR - (names toks).length) rfl
    (by
      simp only [initState, List.nil_append, hlen]
      congr 1
      omega)
  simp only [List.append_nil, mainLoop] at hloop
  simp only [main, hloop]
  refine ⟨trivial, ?_, ?_, ?_⟩
  · simp [allocate_calls, initState]
  · simpa using htbl
  · simp only [allocate_stdout, allocate_slot, htbl]
    simp [initState, hlen]

/-! ## Slot indices and pin ranges (C2) -/

/-- Slot indices of a run without overrun: on an input whose tokens fit
`peri`, whose accepted names (the tokens
not starting with `#`) all name catalog rows, and that has no more accepted
names than `drividtbl` has entries, the slot indices passed to `perilist` are
0, 1, 2, ... in input order: the `k`-th call is made for the `k`-th accepted
name with `addr = k` and with the `dirs`, `npins` and `incname` of the catalog
row of that name, and the output is the text of these calls, in that order,
followed by the links and the table. -/
theorem slot_indices_follow_input_order (mx : Int) (toks : List String)
    (hfit : ∀ t ∈ toks, t.length < PERILEN)
    (hvalid : ∀ t ∈ names toks, ∃ d ∈ pdesc, d.periname = t)
    (hcap : (names toks).length ≤ NUMDRIVR) :
    (main mx toks).st.calls.map Call.addr = List.range (names toks).length ∧
    (∀ (k : Nat) (t : String), (names toks)[k]? = some t →
      ∃ d ∈ pdesc, d.periname = t ∧ ∃ c : Call, (main mx toks).st.calls[k]? = some c ∧
        c.addr = k ∧ c.dirs = d.dirs ∧ c.numpins = d.npins ∧ c.peri = d.incname) ∧
    (main mx toks).st.stdout
      = (main mx toks).st.calls.flatMap (perilistOf mx)
        ++ stitch (names toks).length ++ idTable (main mx toks).st.drividtbl := by
  obtain ⟨_, hcalls, htbl, hout⟩ := main_valid mx toks hfit hvalid hcap
  obtain ⟨hnames, hmem⟩ := descs_valid toks hvalid
  have hlen := descs_length toks hvalid
  refine ⟨?_, ?_, ?_⟩
  · rw [hcalls, callsFrom_addr, hlen]
    simp
  · intro k t hk
    have hk2 : k < (descs toks).length := by
      rw [hlen]
      exact (List.getElem?_eq_some.mp hk).1
    have hdk : (descs toks)[k]? = some (descs toks)[k] := List.getElem?_eq_getElem hk2
    refine ⟨(descs toks)[k], hmem _ (List.getElem_mem _), ?_, ?_⟩
    · have h1 : ((descs toks).map PDESC.periname)[k]? = some t := by rw [hnames]; exact hk
      simpa [hdk] using h1
    · refine ⟨_, by rw [hcalls]; exact callsFrom_getElem? 0 0 _ k _ hdk, ?_, rfl, rfl, rfl⟩
      simp
  · rw [hout, hcalls, htbl]

/-- An instance of the above: a board, a comment and two peripherals. -/
theorem slot_indices_follow_input_order_witness :
    (main 31 ["basys3", "#pins", "out4", "in4"]).st.calls.map Call.addr = List.range 3 :=
  (slot_indices_follow_input_order 31 ["basys3", "#pins", "out4", "in4"]
    (by decide) (by decide) (by decide)).1

/-- C2: on valid input that fits the table, the call made for slot `i` gets as
`startpin` the sum of the catalog pin counts `npins` of the rows in the slots
0 to `i - 1`, and as `numpins` the `npins` of its own row; the rows are the
catalog rows named by the accepted names. -/
theorem start_pin_is_sum_of_earlier_pin_counts (mx : Int) (toks : List String)
    (hfit : ∀ t ∈ toks, t.length < PERILEN)
    (hvalid : ∀ t ∈ names toks, ∃ d ∈ pdesc, d.periname = t)
    (hcap : (names toks).length ≤ NUMDRIVR) :
    ((descs toks).map PDESC.periname = names toks ∧ ∀ d ∈ descs toks, d ∈ pdesc) ∧
    (main mx toks).st.calls.length = (names toks).length ∧
    ∀ (i : Nat) (c : Call), (main mx toks).st.calls[i]? = some c →
      c.addr = i ∧
      c.startpin = (((descs toks).take i).map PDESC.npins).sum ∧
      ∃ d, (descs toks)[i]? = some d ∧ c.numpins = d.npins := by
  obtain ⟨_, hcalls, _, _⟩ := main_valid mx toks hfit hvalid hcap
  have hlen := descs_length toks hvalid
  refine ⟨descs_valid toks hvalid, ?_, ?_⟩
  · rw [hcalls, callsFrom_length, hlen]
  · intro i c hc
    rw [hcalls] at hc
    have hi : i < (descs toks).length := by
      have := (List.getElem?_eq_some.mp hc).1
      rwa [callsFrom_length] at this
    have hdi : (descs toks)[i]? = some (descs toks)[i] := List.getElem?_eq_getElem hi
    rw [callsFrom_getElem? 0 0 _ i _ hdi] at hc
    simp only [Option.some.injEq] at hc
    subst hc
    exact ⟨by simp, by simp, _, hdi, rfl⟩

/-- Witness of C2: slot 2 of `basys3 out4 in4` starts at pin 0 + 4. -/
theorem start_pin_is_sum_of_earlier_pin_counts_witness :
    (main 31 ["basys3", "out4", "in4"]).st.calls[2]? = some ⟨2, 4, 0x0, 4, "in4"⟩ ∧
    (4 : Nat) = (((descs ["basys3", "out4", "in4"]).take 2).map PDESC.npins).sum :=
  ⟨by decide,
    ((start_pin_is_sum_of_earlier_pin_counts 31 ["basys3", "out4", "in4"]
      (by decide) (by decide) (by decide)).2.2 2 ⟨2, 4, 0x0, 4, "in4"⟩ (by decide)).2.1⟩

/-! ## Filtering the output -/

theorem filter_map_of_true {α β : Type} (p : β → Bool) (f : α → β) (l : List α)
    (h : ∀ x, p (f x) = true) : (l.map f).filter p = l.map f := by
  induction l with
  | nil => rfl
  | cons a as ih => simp [List.filter_cons, h, ih]

theorem filter_map_of_false {α β : Type} (p : β → Bool) (f : α → β) (l : List α)
    (h : ∀ x, p (f x) = false) : (l.map f).filter p = [] := by
  induction l with
  | nil => rfl
  | cons a as ih => simp [List.filter_cons, h, ih]

theorem pinLoop_inPerilist (mx : Int) (addr startpin dirs n i : Nat) :
    ∀ l ∈ pinLoop mx addr startpin dirs n i, l.inPerilist = true := by
  induction n generalizing i with
  | zero => simp [pinLoop]
  | succ n ih =>
    intro l hl
    simp only [pinLoop] at hl
    split at hl
    · simp at hl
    · rcases List.mem_cons.mp hl with h | h
      · subst h
        split <;> rfl
      · exact ih (i + 1) l h

theorem perilist_inPerilist (mx : Int) (addr startpin dirs numpins : Nat) (peri : String) :
    ∀ l ∈ perilist mx addr startpin dirs numpins peri, l.inPerilist = true := by
  intro l hl
  simp only [perilist, List.mem_append] at hl
  rcases hl with h | h
  · simp only [List.mem_cons, List.mem_singleton, List.not_mem_nil, or_false] at h
    rcases h with h | h | h | h | h | h | h <;> subst h <;> rfl
  · split at h
    · simp only [List.mem_cons, List.mem_singleton, List.not_mem_nil, or_false] at h
      rcases h with h | h <;> subst h <;> rfl
    · simp only [List.mem_append, List.mem_cons, List.mem_singleton, List.not_mem_nil,
        or_false] at h
      rcases h with ((h | h) | h) | h
      · subst h; rfl
      · subst h; rfl
      · exact pinLoop_inPerilist mx addr startpin dirs numpins 0 l h
      · subst h; rfl

/-- A filter that keeps no line of `perilist` keeps nothing of the text of
the calls. -/
theorem calls_filter (mx : Int) (cs : List Call) (p : Line → Bool)
    (hp : ∀ l, l.inPerilist = true → p l = false) :
    (cs.flatMap (perilistOf mx)).filter p = [] := by
  rw [List.filter_eq_nil_iff]
  intro l hl
  obtain ⟨c, _, hc⟩ := List.mem_flatMap.mp hl
  have := hp l (perilist_inPerilist mx _ _ _ _ _ l hc)
  simp [this]

theorem stitch_filter_isTableRow (slot : Nat) :
    (stitch slot).filter Line.isTableRow = [] := by
  simp only [stitch, List.filter_append]
  rw [filter_map_of_false _ _ _ (fun _ => rfl), filter_map_of_false _ _ _ (fun _ => rfl),
    filter_map_of_false _ _ _ (fun _ => rfl)]
  rfl

theorem stitch_filter_isDataLink (slot : Nat) :
    (stitch slot).filter Line.isDataLink
      = [Line.datIn0] ++ (List.range (slot - 1)).map (fun i => Line.datLink i (i + 1))
        ++ [Line.datLast ((slot : Int) - 1)] := by
  simp only [stitch, List.filter_append]
  rw [filter_map_of_true _ _ _ (fun _ => rfl), filter_map_of_false _ _ _ (fun _ => rfl),
    filter_map_of_false _ _ _ (fun _ => rfl)]
  simp [List.filter_cons, Line.isDataLink]

theorem stitch_filter_isStall (slot : Nat) :
    (stitch slot).filter Line.isStall
      = (List.range (slot - 1)).map Line.stallTerm ++ [Line.stallLast (slot - 1)] := by
  simp only [stitch, List.filter_append]
  rw [filter_map_of_false _ _ _ (fun _ => rfl), filter_map_of_true _ _ _ (fun _ => rfl),
    filter_map_of_false _ _ _ (fun _ => rfl)]
  simp [List.filter_cons, Line.isStall]

theorem stitch_filter_isAck (slot : Nat) :
    (stitch slot).filter Line.isAck
      = (List.range (slot - 1)).map Line.ackTerm ++ [Line.ackLast (slot - 1)] := by
  simp only [stitch, List.filter_append]
  rw [filter_map_of_false _ _ _ (fun _ => rfl), filter_map_of_false _ _ _ (fun _ => rfl),
    filter_map_of_true _ _ _ (fun _ => rfl)]
  simp [List.filter_cons, Line.isAck]

theorem idTable_filter_isTableRow (tbl : List Nat) :
    (idTable tbl).filter Line.isTableRow
      = (List.range (NUMDRIVR - 1)).map (fun i => Line.idRow i (tbl.getD i 0))
        ++ [Line.idDefault (tbl.getD (NUMDRIVR - 1) 0)] := by
  simp only [idTable, List.filter_append]
  rw [filter_map_of_true _ _ _ (fun _ => rfl)]
  simp [List.filter_cons, Line.isTableRow]

theorem idTable_filter_of_not_table (tbl : List Nat) (p : Line → Bool)
    (hrow : ∀ i v, p (Line.idRow i v) = false) (hdef : ∀ v, p (Line.idDefault v) = false)
    (hb : p Line.blank = false) (h1 : p Line.tblModule = false)
    (h2 : p Line.tblInput = false) (h3 : p Line.tblOutput = false)
    (h4 : p Line.tblAssign = false) (h5 : p Line.endmodule = false) :
    (idTable tbl).filter p = [] := by
  simp only [idTable, List.filter_append]
  rw [filter_map_of_false _ _ _ (fun _ => hrow _ _)]
  simp [List.filter_cons, hdef, hb, h1, h2, h3, h4, h5]

theorem getD_table (ds : List PDESC) (m k : Nat) :
    (ds.map PDESC.drivid ++ List.replicate m 0).getD k 0 = rowValue ds k := by
  unfold rowValue
  by_cases hk : k < ds.length
  · simp [List.getD_eq_getElem?_getD, List.getElem?_append_left, hk,
      List.getElem?_eq_getElem]
  · have hk2 : ds.length ≤ k := Nat.le_of_not_lt hk
    rw [List.getElem?_eq_none hk2]
    simp only [List.getD_eq_getElem?_getD]
    rw [List.getElem?_append_right (by simpa using hk2)]
    simp only [List.getElem?_replicate]
    split <;> rfl

/-! ## The driver ID table (C3) -/

/-- C3: on valid input that fits the table (at most 16 accepted names), the
rows of the driver ID table in the output are exactly 16: the comparison rows
for the indices 0 to 14 in ascending order, then the one row without a
comparison that stands for index 15.  The value in row `k` is the `drivid` of
the catalog row in slot `k` when there is such a slot, and 0 otherwise. -/
theorem id_table_has_sixteen_rows (mx : Int) (toks : List String)
    (hfit : ∀ t ∈ toks, t.length < PERILEN)
    (hvalid : ∀ t ∈ names toks, ∃ d ∈ pdesc, d.periname = t)
    (hcap : (names toks).length ≤ NUMDRIVR) :
    (main mx toks).st.stdout.filter Line.isTableRow
      = (List.range 15).map (fun k => Line.idRow k (rowValue (descs toks) k))
        ++ [Line.idDefault (rowValue (descs toks) 15)] ∧
    ((main mx toks).st.stdout.filter Line.isTableRow).length = 16 ∧
    ((descs toks).map PDESC.periname = names toks ∧ ∀ d ∈ descs toks, d ∈ pdesc) ∧
    ∀ k : Nat, (∀ d, (descs toks)[k]? = some d → rowValue (descs toks) k = d.drivid) ∧
      ((names toks).length ≤ k → rowValue (descs toks) k = 0) := by
  obtain ⟨_, _, _, hout⟩ := main_valid mx toks hfit hvalid hcap
  have hlen := descs_length toks hvalid
  have hrows : (main mx toks).st.stdout.filter Line.isTableRow
      = (List.range 15).map (fun k => Line.idRow k (rowValue (descs toks) k))
        ++ [Line.idDefault (rowValue (descs toks) 15)] := by
    rw [hout, List.filter_append, List.filter_append,
      calls_filter mx _ _ (fun l hl => by cases l <;> first | rfl | cases hl),
      stitch_filter_isTableRow, idTable_filter_isTableRow]
    simp only [getD_table, List.nil_append]
    rfl
  refine ⟨hrows, ?_, descs_valid toks hvalid, ?_⟩
  · rw [hrows]
    simp
  · intro k
    constructor
    · intro d hd
      simp [rowValue, hd]
    · intro hk
      have : (descs toks)[k]? = none := List.getElem?_eq_none (by omega)
      simp [rowValue, this]

/-- Witness of C3: the table of `basys3 out4 in4` has 16 rows. -/
theorem id_table_has_sixteen_rows_witness :
    ((main 31 ["basys3", "out4", "in4"]).st.stdout.filter Line.isTableRow).length = 16 :=
  (id_table_has_sixteen_rows 31 ["basys3", "out4", "in4"]
    (by decide) (by decide) (by decide)).2.1

/-! ## The pin loop of `perilist` (C4) -/

/-- C4, the code at the failing input: for the board `stepxo2`, whose
`MX_PCPIN` is 33, and the list `stpxo2` followed by nine `out4`, the run ends
with `exit(0)`, slot 9 is called with `startpin = 32`, and bindings are
printed for `PCPIN[34]` and `PCPIN[35]`, both above `MX_PCPIN`: the test
`startpin + 1 > MX_PCPIN` does not look at the pin position. -/
theorem pins_above_max_are_bound :
    (main 33 ("stpxo2" :: List.replicate 9 "out4")).exit = Exit.success ∧
    (main 33 ("stpxo2" :: List.replicate 9 "out4")).st.calls[9]?
      = some ⟨9, 32, 0xf, 4, "out4"⟩ ∧
    Line.pinOut 34 9 2 ∈ (main 33 ("stpxo2" :: List.replicate 9 "out4")).st.stdout ∧
    Line.pinOut 35 9 3 ∈ (main 33 ("stpxo2" :: List.replicate 9 "out4")).st.stdout ∧
    perilist 33 9 32 0xf 4 "out4"
      = [Line.blank, Line.slotHdr 9 "out4", Line.wireSTB 9, Line.wireSTALL 9,
          Line.wireACK 9, Line.wireDATI 9, Line.wireDATO 9, Line.tri 3 9,
          Line.inst "out4" 9, Line.pinOut 32 9 0, Line.pinOut 33 9 1,
          Line.pinOut 34 9 2, Line.pinOut 35 9 3, Line.stb 9] := by
  decide

/-- A bound that no board header defines: with `MX_PCPIN = 32` and the list
`stpxo2` followed by nine `out4`, slot 9 is called with `startpin = 32`, so
its pin 0 would sit on `PCPIN[32]`, which is not above `MX_PCPIN`; the test
`startpin + 1 > MX_PCPIN` leaves the loop at once and no binding names
`PCPIN[32]`. -/
theorem pin_at_max_is_not_bound :
    (main 32 ("stpxo2" :: List.replicate 9 "out4")).exit = Exit.success ∧
    (main 32 ("stpxo2" :: List.replicate 9 "out4")).st.calls[9]?
      = some ⟨9, 32, 0xf, 4, "out4"⟩ ∧
    32 ∉ (main 32 ("stpxo2" :: List.replicate 9 "out4")).st.stdout.filterMap Line.physPin ∧
    perilist 32 9 32 0xf 4 "out4"
      = [Line.blank, Line.slotHdr 9 "out4", Line.wireSTB 9, Line.wireSTALL 9,
          Line.wireACK 9, Line.wireDATI 9, Line.wireDATO 9, Line.tri 3 9,
          Line.inst "out4" 9, Line.stb 9] := by
  decide

/-! ## The data chain and the composite lines (C6, C7) -/

/-- C6 as stated fails: on the list `basys3 out4` (slots 0 and 1) the claim
asks for the data input of slot 1 to be driven by the data output of slot 0,
the line `assign p01DAT_I = p00DAT_O;`.  The run ends with `exit(0)` and does
not print that line; it prints `assign p00DAT_I = p01DAT_O;`. -/
theorem data_links_counterexample :
    (main 31 ["basys3", "out4"]).exit = Exit.success ∧
    Line.datLink 1 0 ∉ (main 31 ["basys3", "out4"]).st.stdout ∧
    (main 31 ["basys3", "out4"]).st.stdout.filter Line.isDataLink
      = [Line.datIn0, Line.datLink 0 1, Line.datLast 1] := by
  decide

/-- C6 amended: on valid input that fits the table and has at least one
accepted name (slots 0 to `last`), the data links in the output are exactly:
`bi0datin` driven by the data output of slot 0; for each `i < last`, in
ascending order, the data input of slot `i` driven by the data output of slot
`i + 1`; and the data input of slot `last` driven by `bi0datout`. -/
theorem data_links_chain (mx : Int) (toks : List String)
    (hfit : ∀ t ∈ toks, t.length < PERILEN)
    (hvalid : ∀ t ∈ names toks, ∃ d ∈ pdesc, d.periname = t)
    (hcap : (names toks).length ≤ NUMDRIVR)
    (hne : 0 < (names toks).length) :
    (main mx toks).st.stdout.filter Line.isDataLink
      = [Line.datIn0]
        ++ (List.range ((names toks).length - 1)).map (fun i => Line.datLink i (i + 1))
        ++ [Line.datLast (((names toks).length - 1 : Nat) : Int)] := by
  obtain ⟨_, _, _, hout⟩ := main_valid mx toks hfit hvalid hcap
  rw [hout, List.filter_append, List.filter_append,
    calls_filter mx _ _ (fun l hl => by cases l <;> first | rfl | cases hl),
    stitch_filter_isDataLink,
    idTable_filter_of_not_table _ _ (fun _ _ => rfl) (fun _ => rfl) rfl rfl rfl rfl rfl rfl]
  have hcast : (((names toks).length : Nat) : Int) - 1
      = (((names toks).length - 1 : Nat) : Int) := by omega
  simp [hcast]

/-- Witness of C6 amended: the chain of `basys3 out4 in4`. -/
theorem data_links_chain_witness :
    (main 31 ["basys3", "out4", "in4"]).st.stdout.filter Line.isDataLink
      = [Line.datIn0]
        ++ (List.range ((names ["basys3", "out4", "in4"]).length - 1)).map
            (fun i => Line.datLink i (i + 1))
        ++ [Line.datLast (((names ["basys3", "out4", "in4"]).length - 1 : Nat) : Int)] :=
  data_links_chain 31 ["basys3", "out4", "in4"] (by decide) (by decide) (by decide)
    (by decide)

/-- C7 as stated fails on the empty name sequence: the run ends with
`exit(0)` and has allocated no slot (no call of `perilist`), yet each
composite expression holds one term, `p00STALL_O` and `p00ACK_O`. -/
theorem composite_terms_counterexample :
    (main 31 []).exit = Exit.success ∧
    (main 31 []).st.calls = [] ∧
    (main 31 []).st.stdout.filter Line.isStall = [Line.stallLast 0] ∧
    (main 31 []).st.stdout.filter Line.isAck = [Line.ackLast 0] ∧
    ((main 31 []).st.stdout.filter Line.isStall).filterMap Line.term
      ≠ List.range (main 31 []).st.calls.length := by
  decide

/-- C7 amended: on valid input that fits the table and has at least one
accepted name, with `n` the number of slots, the composite `STALL_I`
expression is the lines `pNNSTALL_O |` for the slots 0 to `n - 2` followed by
`pNNSTALL_O;` for slot `n - 1`, and the composite `ACK_I` expression likewise:
one term for each slot in ascending order and `n - 1` operators `|`. -/
theorem composite_terms (mx : Int) (toks : List String)
    (hfit : ∀ t ∈ toks, t.length < PERILEN)
    (hvalid : ∀ t ∈ names toks, ∃ d ∈ pdesc, d.periname = t)
    (hcap : (names toks).length ≤ NUMDRIVR)
    (hne : 0 < (names toks).length) :
    ((main mx toks).st.stdout.filter Line.isStall
        = (List.range ((names toks).length - 1)).map Line.stallTerm
          ++ [Line.stallLast ((names toks).length - 1)] ∧
      (main mx toks).st.stdout.filter Line.isAck
        = (List.range ((names toks).length - 1)).map Line.ackTerm
          ++ [Line.ackLast ((names toks).length - 1)]) ∧
    (((main mx toks).st.stdout.filter Line.isStall).filterMap Line.term
        = List.range (names toks).length ∧
      ((main mx toks).st.stdout.filter Line.isAck).filterMap Line.term
        = List.range (names toks).length) ∧
    ((((main mx toks).st.stdout.filter Line.isStall).filter Line.hasOr).length
        = (names toks).length - 1 ∧
      (((main mx toks).st.stdout.filter Line.isAck).filter Line.hasOr).length
        = (names toks).length - 1) ∧
    (main mx toks).st.calls.map Call.addr = List.range (names toks).length := by
  obtain ⟨_, hcalls, _, hout⟩ := main_valid mx toks hfit hvalid hcap
  have hlen := descs_length toks hvalid
  have hstall : (main mx toks).st.stdout.filter Line.isStall
      = (List.range ((names toks).length - 1)).map Line.stallTerm
        ++ [Line.stallLast ((names toks).length - 1)] := by
    rw [hout, List.filter_append, List.filter_append,
      calls_filter mx _ _ (fun l hl => by cases l <;> first | rfl | cases hl),
      stitch_filter_isStall,
      idTable_filter_of_not_table _ _ (fun _ _ => rfl) (fun _ => rfl) rfl rfl rfl rfl rfl rfl]
    simp
  have hack : (main mx toks).st.stdout.filter Line.isAck
      = (List.range ((names toks).length - 1)).map Line.ackTerm
        ++ [Line.ackLast ((names toks).length - 1)] := by
    rw [hout, List.filter_append, List.filter_append,
      calls_filter mx _ _ (fun l hl => by cases l <;> first | rfl | cases hl),
      stitch_filter_isAck,
      idTable_filter_of_not_table _ _ (fun _ _ => rfl) (fun _ => rfl) rfl rfl rfl rfl rfl rfl]
    simp
  have hrange : List.range ((names toks).length - 1) ++ [(names toks).length - 1]
      = List.range (names toks).length := by
    rw [← List.range_succ]
    congr 1
    omega
  refine ⟨⟨hstall, hack⟩, ⟨?_, ?_⟩, ⟨?_, ?_⟩, ?_⟩
  · rw [hstall, List.filterMap_append, List.filterMap_map]
    simp only [Function.comp_def, Line.term, List.filterMap_cons, List.filterMap_nil]
    rw [show (fun x : Nat => some x) = some from rfl, List.filterMap_some]
    exact hrange
  · rw [hack, List.filterMap_append, List.filterMap_map]
    simp only [Function.comp_def, Line.term, List.filterMap_cons, List.filterMap_nil]
    rw [show (fun x : Nat => some x) = some from rfl, List.filterMap_some]
    exact hrange
  · rw [hstall, List.filter_append, filter_map_of_true _ _ _ (fun _ => rfl)]
    simp [Line.hasOr]
  · rw [hack, List.filter_append, filter_map_of_true _ _ _ (fun _ => rfl)]
    simp [Line.hasOr]
  · rw [hcalls, callsFrom_addr, hlen]
    simp

/-- Witness of C7 amended: the three stall terms of `basys3 out4 in4`. -/
theorem composite_terms_witness :
    ((main 31 ["basys3", "out4", "in4"]).st.stdout.filter Line.isStall).filterMap Line.term
      = List.range (names ["basys3", "out4", "in4"]).length :=
  (composite_terms 31 ["basys3", "out4", "in4"] (by decide) (by decide) (by decide)
    (by decide)).2.1.1

/-! ## The catalog search (C8) -/

/-- C8: the catalog search is an exact, case-sensitive match of the whole
name.  For every token (a C string, so without NUL; no bound on its length
is needed): the test of one row succeeds exactly when the token is the
`periname` of that row; the search succeeds exactly when the token is the
`periname` of some row, and it returns that row and no other.  So `out4`
gives driver ID 24 and `out4l` gives 25, while `out`, `OUT4` and `out4x` are
unknown. -/
theorem lookup_is_exact_match (tok : String) (hnul : Char.ofNat 0 ∉ tok.data) :
    (∀ d ∈ pdesc, strncmp tok.data d.periname.data (PERILEN - 1) = 0 ↔ tok = d.periname) ∧
    ((lookup tok).isSome = true ↔ ∃ d ∈ pdesc, d.periname = tok) ∧
    (∀ d ∈ pdesc, d.periname = tok → lookup tok = some d) ∧
    (∀ d, lookup tok = some d → d ∈ pdesc ∧ d.periname = tok) ∧
    ((lookup "out4").map PDESC.drivid = some 24 ∧
      (lookup "out4l").map PDESC.drivid = some 25 ∧
      lookup "out" = none ∧ lookup "OUT4" = none ∧ lookup "out4x" = none) := by
  refine ⟨?_, ?_, ?_, ?_, by decide⟩
  · intro d hm
    constructor
    · intro hz
      have hs := pdesc_names_short d hm
      exact String.ext (eq_of_strncmp_eq_zero _ _ _ hnul hs.2 hs.1 hz)
    · rintro rfl
      exact strncmp_self _ _
  · constructor
    · intro h
      obtain ⟨d, hd⟩ := Option.isSome_iff_exists.mp h
      exact ⟨d, lookup_some_imp tok hnul d hd⟩
    · rintro ⟨d, hm, rfl⟩
      rw [lookup_periname d hm]
      rfl
  · rintro d hm rfl
    exact lookup_periname d hm
  · exact lookup_some_imp tok hnul

/-- Witness of C8: the token `out4`. -/
theorem lookup_is_exact_match_witness :
    (lookup "out4").isSome = true ↔ ∃ d ∈ pdesc, d.periname = "out4" :=
  (lookup_is_exact_match "out4" (by decide)).2.1

/-! ## Fatal ends of the run (C10) -/

/-- The abort at an unknown token in a run without overrun: when the tokens
in front of the token `bad` fit `peri`, their
accepted names are catalog names and not more than `drividtbl` has entries,
and `bad` fits `peri`, does not start with `#` and is no catalog name, then
the run ends at `bad` with the diagnostic "Unknown peripheral" that names
`bad` and with exit status 1.  The calls of `perilist` made are those for
the accepted names in front of `bad`, and the run does not depend on the
tokens after `bad`. -/
theorem unknown_peripheral_aborts (mx : Int) (argv0 : String) (pre post : List String)
    (bad : String)
    (hfit : ∀ t ∈ pre, t.length < PERILEN)
    (hvalid : ∀ t ∈ names pre, ∃ d ∈ pdesc, d.periname = t)
    (hcap : (names pre).length ≤ NUMDRIVR)
    (hfitbad : bad.length < PERILEN)
    (hname : isComment bad = false)
    (hnul : Char.ofNat 0 ∉ bad.data)
    (hunknown : ∀ d ∈ pdesc, d.periname ≠ bad) :
    (main mx (pre ++ bad :: post)).exit = Exit.unknownPeripheral bad ∧
    (main mx (pre ++ bad :: post)).exit.code = some 1 ∧
    (main mx (pre ++ bad :: post)).exit.diagnostic argv0
      = some ("FATAL: " ++ argv0 ++ ": Unknown peripheral: " ++ bad) ∧
    (main mx (pre ++ bad :: post)).st.calls = callsFrom 0 0 (descs pre) ∧
    (main mx (pre ++ bad :: post)).st.calls.length = (names pre).length ∧
    main mx (pre ++ bad :: post) = main mx (pre ++ [bad]) := by
  have hnone : lookup bad = none := (lookup_eq_none_iff bad hnul).mpr hunknown
  have hb : ¬ PERILEN ≤ bad.length := Nat.not_le.mpr hfitbad
  have hrun : ∀ rest : List String, main mx (pre ++ bad :: rest)
      = ⟨Exit.unknownPeripheral bad, allocate mx (descs pre) initState⟩ := by
    intro rest
    have hloop := mainLoop_append mx pre (bad :: rest) initState hfit hvalid
      (by simpa [initState] using hcap)
    simp only [main, hloop, mainLoop, hb, hname, hnone, if_false]
    simp
  rw [hrun post, hrun []]
  refine ⟨rfl, rfl, rfl, ?_, ?_, rfl⟩
  · simp [allocate_calls, initState]
  · simp [allocate_calls, initState, callsFrom_length, descs_length pre hvalid]

/-- An instance of the above: the token `OUT4` after `basys3 out4`. -/
theorem unknown_peripheral_aborts_witness :
    (main 31 (["basys3", "out4"] ++ "OUT4" :: ["in4"])).exit = Exit.unknownPeripheral "OUT4" :=
  (unknown_peripheral_aborts 31 "buildmain" ["basys3", "out4"] ["in4"] "OUT4"
    (by decide) (by decide) (by decide) (by decide) (by decide) (by decide) (by decide)).1

/-- C10, the code at the failing input: on the board name `axo2` followed by
sixteen `in4`, seventeen valid names, the run does not end with exit status
1.  `perilist` is called for the seventeenth name with `addr = 16`, its text
is printed, and the run reaches the store `drividtbl[16]`, outside the
`NUMDRIVR` entries of the table. -/
theorem seventeenth_name_is_not_rejected :
    (main 59 ("axo2" :: List.replicate 16 "in4")).exit = Exit.tableOverrun 16 ∧
    (main 59 ("axo2" :: List.replicate 16 "in4")).exit.code ≠ some 1 ∧
    (main 59 ("axo2" :: List.replicate 16 "in4")).st.calls.map Call.addr = List.range 17 ∧
    Line.slotHdr 16 "in4" ∈ (main 59 ("axo2" :: List.replicate 16 "in4")).st.stdout ∧
    Line.stb 16 ∈ (main 59 ("axo2" :: List.replicate 16 "in4")).st.stdout := by
  decide

/-! ## Mapping the output -/

theorem pinLoop_filterMap_none {β : Type} (f : Line → Option β)
    (hout : ∀ a b c, f (Line.pinOut a b c) = none)
    (hin : ∀ a b c, f (Line.pinIn a b c) = none)
    (mx : Int) (addr startpin dirs n i : Nat) :
    (pinLoop mx addr startpin dirs n i).filterMap f = [] := by
  induction n generalizing i with
  | zero => rfl
  | succ n ih =>
    simp only [pinLoop]
    split
    · rfl
    · split <;> simp [List.filterMap_cons, hout, hin, ih]

theorem stitch_afterLoop (slot : Nat) : ∀ l ∈ stitch slot, l.afterLoop = true := by
  intro l hl
  simp only [stitch, List.mem_append, List.mem_map, List.mem_cons, List.mem_singleton,
    List.not_mem_nil, or_false, List.mem_range] at hl
  casesm* _ ∨ _, ∃ _, _, _ ∧ _ <;> subst_vars <;> rfl

theorem idTable_afterLoop (tbl : List Nat) : ∀ l ∈ idTable tbl, l.afterLoop = true := by
  intro l hl
  simp only [idTable, List.mem_append, List.mem_map, List.mem_cons, List.mem_singleton,
    List.not_mem_nil, or_false, List.mem_range] at hl
  casesm* _ ∨ _, ∃ _, _, _ ∧ _ <;> subst_vars <;> rfl

/-- A reading that finds nothing on the lines printed after the loop finds
nothing in the links and the table. -/
theorem afterLoop_filterMap {β : Type} (f : Line → Option β)
    (hf : ∀ l, l.afterLoop = true → f l = none) (slot : Nat) (tbl : List Nat) :
    (stitch slot).filterMap f = [] ∧ (idTable tbl).filterMap f = [] := by
  constructor
  · rw [List.filterMap_eq_nil_iff]
    exact fun l hl => hf l (stitch_afterLoop slot l hl)
  · rw [List.filterMap_eq_nil_iff]
    exact fun l hl => hf l (idTable_afterLoop tbl l hl)

theorem perilist_instOf (mx : Int) (addr startpin dirs numpins : Nat) (peri : String) :
    (perilist mx addr startpin dirs numpins peri).filterMap Line.instOf = [(addr, peri)] := by
  simp only [perilist, List.filterMap_append]
  split
  · next h => simp [List.filterMap_cons, Line.instOf, h]
  · simp only [List.filterMap_append]
    rw [pinLoop_filterMap_none Line.instOf (fun _ _ _ => rfl) (fun _ _ _ => rfl)]
    simp [List.filterMap_cons, Line.instOf]

theorem calls_instOf (mx : Int) (cs : List Call) :
    (cs.flatMap (perilistOf mx)).filterMap Line.instOf = cs.map (fun c => (c.addr, c.peri)) := by
  induction cs with
  | nil => rfl
  | cons c cs ih =>
    simp only [List.flatMap_cons, List.filterMap_append, ih, perilistOf, perilist_instOf,
      List.map_cons, List.singleton_append]

theorem callsFrom_peri (slot pin : Nat) (ds : List PDESC) :
    (callsFrom slot pin ds).map Call.peri = ds.map PDESC.incname := by
  induction ds generalizing slot pin with
  | nil => rfl
  | cons d ds ih => simp [callsFrom, ih]

/-! ## Slot 0 and the pin walk (C11, C12) -/

/-- C11 as stated fails: on the two names `basys3 out4` the run ends with
`exit(0)` and has made two `perilist` calls, for the slots 0 and 1, not
three; slot 0 is the instantiation of `basys3`, the first name of the input,
and `out4`, the second name, is slot 1. -/
theorem slot_zero_counterexample :
    (main 31 ["basys3", "out4"]).exit = Exit.success ∧
    (main 31 ["basys3", "out4"]).st.calls.map Call.addr = [0, 1] ∧
    (main 31 ["basys3", "out4"]).st.stdout.filterMap Line.instOf
      = [(0, "basys3"), (1, "out4")] := by
  decide

/-- C11 amended: on valid input that fits the table, with `n` accepted names,
the generator emits `n` slots with the indices 0 to `n - 1`: one `perilist`
call and one module instantiation for each name, in input order.  Slot 0 is
the first name of the input, instantiated with the board IO invocation, and
the `k`-th name (`k` from 1 to `n`) is slot `k - 1`. -/
theorem slots_are_the_names (mx : Int) (toks : List String)
    (hfit : ∀ t ∈ toks, t.length < PERILEN)
    (hvalid : ∀ t ∈ names toks, ∃ d ∈ pdesc, d.periname = t)
    (hcap : (names toks).length ≤ NUMDRIVR) :
    ((descs toks).map PDESC.periname = names toks ∧ ∀ d ∈ descs toks, d ∈ pdesc) ∧
    (main mx toks).st.calls.length = (names toks).length ∧
    (main mx toks).st.calls.map Call.addr = List.range (names toks).length ∧
    (main mx toks).st.calls.map Call.peri = (descs toks).map PDESC.incname ∧
    (main mx toks).st.stdout.filterMap Line.instOf
      = (main mx toks).st.calls.map (fun c => (c.addr, c.peri)) ∧
    (∀ d, (descs toks)[0]? = some d →
      Line.boardInst d.incname ∈ (main mx toks).st.stdout) := by
  obtain ⟨_, hcalls, _, hout⟩ := main_valid mx toks hfit hvalid hcap
  have hlen := descs_length toks hvalid
  have hinst : (main mx toks).st.stdout.filterMap Line.instOf
      = (main mx toks).st.calls.map (fun c => (c.addr, c.peri)) := by
    obtain ⟨h1, h2⟩ := afterLoop_filterMap Line.instOf
      (fun l hl => by cases l <;> first | rfl | cases hl) (names toks).length
      ((descs toks).map PDESC.drivid ++ List.replicate (NUMDRIVR - (names toks).length) 0)
    rw [hout, List.filterMap_append, List.filterMap_append, calls_instOf, h1, h2, hcalls]
    simp
  refine ⟨descs_valid toks hvalid, ?_, ?_, ?_, hinst, ?_⟩
  · rw [hcalls, callsFrom_length, hlen]
  · rw [hcalls, callsFrom_addr, hlen]
    simp
  · rw [hcalls, callsFrom_peri]
  · intro d hd
    rw [hout]
    cases hds : descs toks with
    | nil => simp [hds] at hd
    | cons e es =>
      simp only [hds, List.getElem?_cons_zero, Option.some.injEq] at hd
      subst hd
      simp [callsFrom, perilistOf, perilist]

/-- Witness of C11 amended: three names give the slots 0, 1, 2. -/
theorem slots_are_the_names_witness :
    (main 31 ["basys3", "out4", "in4"]).st.calls.map Call.addr
      = List.range (names ["basys3", "out4", "in4"]).length :=
  (slots_are_the_names 31 ["basys3", "out4", "in4"]
    (by decide) (by decide) (by decide)).2.2.1

theorem callsFrom_getElem?_some (slot pin : Nat) (ds : List PDESC) (k : Nat) (c : Call)
    (hc : (callsFrom slot pin ds)[k]? = some c) :
    ∃ d, ds[k]? = some d ∧
      c = ⟨slot + k, pin + ((ds.take k).map PDESC.npins).sum, d.dirs, d.npins, d.incname⟩ := by
  have hk : k < ds.length := by
    have := (List.getElem?_eq_some.mp hc).1
    rwa [callsFrom_length] at this
  have hd : ds[k]? = some ds[k] := List.getElem?_eq_getElem hk
  rw [callsFrom_getElem? slot pin ds k _ hd] at hc
  exact ⟨ds[k], hd, (Option.some.inj hc).symm⟩

theorem sum_take_succ_npins (ds : List PDESC) (k : Nat) (d : PDESC) (hd : ds[k]? = some d) :
    ((ds.take (k + 1)).map PDESC.npins).sum = ((ds.take k).map PDESC.npins).sum + d.npins := by
  rw [List.take_succ, hd]
  simp

/-- C12 as stated fails: on `out4 in4` the run ends with `exit(0)`, slot 0
holds the row of `out4` with its four pins, and slot 1 is called with
`startpin = 4`, not 0. -/
theorem pin_walk_counterexample :
    (main 31 ["out4", "in4"]).exit = Exit.success ∧
    (main 31 ["out4", "in4"]).st.calls[0]? = some ⟨0, 0, 0xf, 4, "out4"⟩ ∧
    (main 31 ["out4", "in4"]).st.calls[1]? = some ⟨1, 4, 0x0, 4, "in4"⟩ := by
  decide

/-- C12 amended: on valid input that fits the table, slot 0 starts the pin
walk at pin 0 and counts in it with the `npins` of its row: slot 1 starts at
that pin count, which is 0 for the board rows `bb4io`, `axo2`, `tang4k`,
`stpxo2` and `basys3`; and for every `i` from 0 on, the start of slot `i + 1`
is the start of slot `i` plus the pin count of slot `i`. -/
theorem pin_walk_counts_every_slot (mx : Int) (toks : List String)
    (hfit : ∀ t ∈ toks, t.length < PERILEN)
    (hvalid : ∀ t ∈ names toks, ∃ d ∈ pdesc, d.periname = t)
    (hcap : (names toks).length ≤ NUMDRIVR) :
    (∀ c0 : Call, (main mx toks).st.calls[0]? = some c0 →
      c0.startpin = 0 ∧ ∃ d, (descs toks)[0]? = some d ∧ c0.numpins = d.npins) ∧
    (∀ c0 c1 : Call, (main mx toks).st.calls[0]? = some c0 →
      (main mx toks).st.calls[1]? = some c1 → c1.startpin = c0.numpins) ∧
    (∀ (i : Nat) (c c' : Call), (main mx toks).st.calls[i]? = some c →
      (main mx toks).st.calls[i + 1]? = some c' → c'.startpin = c.startpin + c.numpins) ∧
    (∀ d ∈ pdesc, d.periname ∈ ["bb4io", "axo2", "tang4k", "stpxo2", "basys3"] →
      d.npins = 0) := by
  obtain ⟨_, hcalls, _, _⟩ := main_valid mx toks hfit hvalid hcap
  have hstep : ∀ (i : Nat) (c c' : Call), (main mx toks).st.calls[i]? = some c →
      (main mx toks).st.calls[i + 1]? = some c' → c'.startpin = c.startpin + c.numpins := by
    intro i c c' hc hc'
    rw [hcalls] at hc hc'
    obtain ⟨d, hd, rfl⟩ := callsFrom_getElem?_some 0 0 _ i c hc
    obtain ⟨d', _, rfl⟩ := callsFrom_getElem?_some 0 0 _ (i + 1) c' hc'
    simp only [sum_take_succ_npins _ i d hd]
    omega
  have hzero : ∀ c0 : Call, (main mx toks).st.calls[0]? = some c0 →
      c0.startpin = 0 ∧ ∃ d, (descs toks)[0]? = some d ∧ c0.numpins = d.npins := by
    intro c0 hc0
    rw [hcalls] at hc0
    obtain ⟨d, hd, rfl⟩ := callsFrom_getElem?_some 0 0 _ 0 c0 hc0
    exact ⟨by simp, d, hd, rfl⟩
  refine ⟨hzero, ?_, hstep, by decide⟩
  intro c0 c1 hc0 hc1
  have h := hstep 0 c0 c1 hc0 hc1
  rw [(hzero c0 hc0).1] at h
  omega

/-- Witness of C12 amended: after `basys3`, slot 1 starts at pin 0 and slot 2
at pin 4. -/
theorem pin_walk_counts_every_slot_witness :
    (⟨2, 4, 0x0, 4, "in4"⟩ : Call).startpin
      = (⟨1, 0, 0xf, 4, "out4"⟩ : Call).startpin + (⟨1, 0, 0xf, 4, "out4"⟩ : Call).numpins ∧
    (main 31 ["basys3", "out4", "in4"]).st.calls[1]? = some ⟨1, 0, 0xf, 4, "out4"⟩ :=
  ⟨(pin_walk_counts_every_slot 31 ["basys3", "out4", "in4"]
      (by decide) (by decide) (by decide)).2.2.1 1 ⟨1, 0, 0xf, 4, "out4"⟩
      ⟨2, 4, 0x0, 4, "in4"⟩ (by decide) (by decide),
    by decide⟩

/-! ## The pin loop in closed form -/

theorem pinLoop_of_gt (mx : Int) (addr startpin dirs n i : Nat)
    (h : (startpin : Int) + 1 > mx) : pinLoop mx addr startpin dirs n i = [] := by
  cases n with
  | zero => rfl
  | succ n => simp [pinLoop, h]

theorem pinLoop_of_le (mx : Int) (addr startpin dirs n i : Nat)
    (h : (startpin : Int) + 1 ≤ mx) :
    pinLoop mx addr startpin dirs n i
      = (List.range n).map (fun j =>
          if dirs &&& (1 <<< (i + j)) ≠ 0 then Line.pinOut (startpin + (i + j)) addr (i + j)
          else Line.pinIn addr (i + j) (startpin + (i + j))) := by
  have hn : ¬ (startpin : Int) + 1 > mx := by omega
  induction n generalizing i with
  | zero => rfl
  | succ n ih =>
    simp only [pinLoop, hn, if_false, ih, List.range_succ_eq_map, List.map_cons, List.map_map,
      Nat.add_zero]
    refine congrArg₂ _ rfl (List.map_congr_left fun j _ => ?_)
    simp only [Function.comp, Nat.succ_eq_add_one]
    rw [show i + 1 + j = i + (j + 1) by omega]

theorem pinLoop_isPin (mx : Int) (addr startpin dirs n i : Nat) :
    ∀ l ∈ pinLoop mx addr startpin dirs n i, l.isPin = true := by
  induction n generalizing i with
  | zero => simp [pinLoop]
  | succ n ih =>
    intro l hl
    simp only [pinLoop] at hl
    split at hl
    · simp at hl
    · rcases List.mem_cons.mp hl with h | h
      · subst h
        split <;> rfl
      · exact ih (i + 1) l h

theorem perilist_filter_isPin (mx : Int) (addr startpin dirs numpins : Nat) (peri : String) :
    (perilist mx addr startpin dirs numpins peri).filter Line.isPin
      = if addr = 0 then [] else pinLoop mx addr startpin dirs numpins 0 := by
  simp only [perilist, List.filter_append]
  split
  · rfl
  · simp only [List.filter_append]
    rw [List.filter_eq_self.mpr (pinLoop_isPin mx addr startpin dirs numpins 0)]
    simp [List.filter_cons, Line.isPin]

/-- A filter that keeps no line printed after the loop keeps nothing of the
links and the table. -/
theorem afterLoop_filter (p : Line → Bool)
    (hp : ∀ l, l.afterLoop = true → p l = false) (slot : Nat) (tbl : List Nat) :
    (stitch slot).filter p = [] ∧ (idTable tbl).filter p = [] := by
  constructor
  · rw [List.filter_eq_nil_iff]
    intro l hl
    simp [hp l (stitch_afterLoop slot l hl)]
  · rw [List.filter_eq_nil_iff]
    intro l hl
    simp [hp l (idTable_afterLoop tbl l hl)]

theorem pdesc_names_not_comment : ∀ d ∈ pdesc, isComment d.periname = false := by
  decide

theorem getD_append_replicate_zero (l : List Nat) (m k : Nat) :
    (l ++ List.replicate m 0).getD k 0 = l.getD k 0 := by
  by_cases hk : k < l.length
  · simp [List.getD_eq_getElem?_getD, List.getElem?_append_left, hk]
  · have hk2 : l.length ≤ k := Nat.le_of_not_lt hk
    simp only [List.getD_eq_getElem?_getD]
    rw [List.getElem?_append_right hk2, List.getElem?_eq_none hk2]
    simp only [List.getElem?_replicate]
    split <;> rfl

/-! ## The example `out4 in4` (C13) -/

/-- C13 as stated fails: on the name sequence `out4 in4` with `MX_PCPIN = 7`
slot 0 is `out4` (printed with the board IO invocation, without pin
bindings) and slot 1 is `in4` on the pins 4 to 7; there is no slot 2, the
`STALL_I` expression has two terms, and the table rows start with 24, 23, 0. -/
theorem example_counterexample :
    (main 7 ["out4", "in4"]).st.calls
      = [⟨0, 0, 0xf, 4, "out4"⟩, ⟨1, 4, 0x0, 4, "in4"⟩] ∧
    (main 7 ["out4", "in4"]).st.stdout.filter Line.isPin
      = [Line.pinIn 1 0 4, Line.pinIn 1 1 5, Line.pinIn 1 2 6, Line.pinIn 1 3 7] ∧
    (main 7 ["out4", "in4"]).st.stdout.filter Line.isStall
      = [Line.stallTerm 0, Line.stallLast 1] ∧
    ((main 7 ["out4", "in4"]).st.stdout.filter Line.isTableRow).take 3
      = [Line.idRow 0 24, Line.idRow 1 23, Line.idRow 2 0] := by
  decide

/-- C13 amended: on the name sequence that starts with the name of a catalog
row `b` without pins (a board row) and goes on with `out4 in4`, with
`MX_PCPIN` at least 7, the generator yields: slot 0 for `b`; slot 1 for
`out4` bound to the physical pins 0 to 3, all four as output bindings; slot 2
for `in4` bound to the physical pins 4 to 7, all four as input bindings; a
`STALL_I` expression of the three terms for the slots 0, 1, 2; and the table
rows `b.drivid`, 24, 23 followed by zeros. -/
theorem example_board_out4_in4 (mx : Int) (b : PDESC) (hmx : 7 ≤ mx) (hb : b ∈ pdesc)
    (hpins : b.npins = 0) :
    (main mx [b.periname, "out4", "in4"]).exit = Exit.success ∧
    (main mx [b.periname, "out4", "in4"]).st.calls
      = [⟨0, 0, b.dirs, 0, b.incname⟩, ⟨1, 0, 0xf, 4, "out4"⟩, ⟨2, 4, 0x0, 4, "in4"⟩] ∧
    (main mx [b.periname, "out4", "in4"]).st.stdout.filter Line.isPin
      = [Line.pinOut 0 1 0, Line.pinOut 1 1 1, Line.pinOut 2 1 2, Line.pinOut 3 1 3,
          Line.pinIn 2 0 4, Line.pinIn 2 1 5, Line.pinIn 2 2 6, Line.pinIn 2 3 7] ∧
    (main mx [b.periname, "out4", "in4"]).st.stdout.filter Line.isStall
      = [Line.stallTerm 0, Line.stallTerm 1, Line.stallLast 2] ∧
    (main mx [b.periname, "out4", "in4"]).st.stdout.filter Line.isTableRow
      = (List.range 15).map (fun k => Line.idRow k ([b.drivid, 24, 23].getD k 0))
        ++ [Line.idDefault 0] := by
  have hnc := pdesc_names_not_comment b hb
  have hnames : names [b.periname, "out4", "in4"] = [b.periname, "out4", "in4"] := by
    rw [names_cons_name _ _ hnc]
    rfl
  have hdescs : descs [b.periname, "out4", "in4"]
      = [b, ⟨"out4", 24, "out4", 0xf, 4⟩, ⟨"in4", 23, "in4", 0x0, 4⟩] := by
    rw [descs_cons_name _ _ b hnc (lookup_periname b hb)]
    congr 1
  have hfit : ∀ t ∈ [b.periname, "out4", "in4"], t.length < PERILEN := by
    intro t ht
    simp only [List.mem_cons, List.mem_singleton, List.not_mem_nil, or_false] at ht
    rcases ht with rfl | rfl | rfl
    · have := (pdesc_names_short b hb).1
      simp only [PERILEN] at this ⊢
      omega
    · decide
    · decide
  have hvalid : ∀ t ∈ names [b.periname, "out4", "in4"], ∃ d ∈ pdesc, d.periname = t := by
    rw [hnames]
    intro t ht
    simp only [List.mem_cons, List.mem_singleton, List.not_mem_nil, or_false] at ht
    rcases ht with rfl | rfl | rfl
    · exact ⟨b, hb, rfl⟩
    · decide
    · decide
  have hcap : (names [b.periname, "out4", "in4"]).length ≤ NUMDRIVR := by
    rw [hnames]
    simp [NUMDRIVR]
  obtain ⟨hexit, hcalls, _, hout⟩ := main_valid mx _ hfit hvalid hcap
  rw [hdescs, hnames] at hout
  rw [hdescs] at hcalls
  have h0 : ((0 : Nat) : Int) + 1 ≤ mx := by omega
  have h4 : ((4 : Nat) : Int) + 1 ≤ mx := by omega
  refine ⟨hexit, ?_, ?_, ?_, ?_⟩
  · rw [hcalls]
    simp [callsFrom, hpins]
  · obtain ⟨h1, h2⟩ := afterLoop_filter Line.isPin
      (fun l hl => by cases l <;> first | rfl | cases hl) 3
      (([b, ⟨"out4", 24, "out4", 0xf, 4⟩, ⟨"in4", 23, "in4", 0x0, 4⟩] : List PDESC).map
          PDESC.drivid ++ List.replicate (NUMDRIVR - 3) 0)
    rw [hout, List.filter_append, List.filter_append]
    simp only [List.length_cons, List.length_nil] at h1 h2 ⊢
    rw [h1, h2]
    simp only [callsFrom, hpins, List.flatMap_cons, List.flatMap_nil, List.filter_append,
      perilistOf, perilist_filter_isPin, List.append_nil, List.filter_nil]
    rw [pinLoop_of_le mx 1 0 0xf 4 0 h0, pinLoop_of_le mx 2 (0 + 0 + 4) 0x0 4 0 h4]
    simp only [if_true, List.nil_append]
    decide
  · rw [hout, List.filter_append, List.filter_append,
      calls_filter mx _ _ (fun l hl => by cases l <;> first | rfl | cases hl),
      stitch_filter_isStall,
      idTable_filter_of_not_table _ _ (fun _ _ => rfl) (fun _ => rfl) rfl rfl rfl rfl rfl rfl]
    rfl
  · rw [hout, List.filter_append, List.filter_append,
      calls_filter mx _ _ (fun l hl => by cases l <;> first | rfl | cases hl),
      stitch_filter_isTableRow, idTable_filter_isTableRow]
    simp only [List.map_cons, List.map_nil, List.nil_append]
    have hg : ∀ k, ([b.drivid, 24, 23] ++ List.replicate (NUMDRIVR - 3) 0).getD k 0
        = [b.drivid, 24, 23].getD k 0 := fun k => getD_append_replicate_zero _ _ k
    simp only [List.length_cons, List.length_nil] at hg ⊢
    simp only [hg]
    rfl

/-- Witness of C13 amended: the board `basys3` and `MX_PCPIN = 31`. -/
theorem example_board_out4_in4_witness :
    (main 31 ["basys3", "out4", "in4"]).st.stdout.filter Line.isStall
      = [Line.stallTerm 0, Line.stallTerm 1, Line.stallLast 2] :=
  (example_board_out4_in4 31 ⟨"basys3", 47, "basys3", 0x0, 0⟩ (by decide) (by decide)
    rfl).2.2.2.1

/-! ## The empty name sequence (C14) -/

/-- C14 as stated fails: on the empty name sequence the run ends with
`exit(0)`, but it prints no module instantiation; its last data link is
`assign p-1DAT_I = bi0datout;` and not `assign p00DAT_I = bi0datout;`; and
row 0 of the table holds 0, which is the driver ID of no catalog row. -/
theorem empty_sequence_counterexample :
    (main 31 []).exit = Exit.success ∧
    (main 31 []).st.stdout.filterMap Line.instOf = [] ∧
    (main 31 []).st.stdout.filter Line.isDataLink = [Line.datIn0, Line.datLast (-1)] ∧
    Line.datLast 0 ∉ (main 31 []).st.stdout ∧
    Line.idRow 0 0 ∈ (main 31 []).st.stdout ∧
    (∀ d ∈ pdesc, d.drivid ≠ 0) := by
  decide

/-- C14 amended: on the empty name sequence, for every `MX_PCPIN`, the run
ends with `exit(0)` and emits: no module instantiation (no `perilist` call is
made: slot 0 would be the first name); `STALL_I` and `ACK_I` expressions of
one term each, `p00STALL_O` and `p00ACK_O`, without the operator `|`; the
link `assign bi0datin = p00DAT_O;`; and a table of 16 rows that are all 0. -/
theorem empty_sequence (mx : Int) :
    (main mx []).exit = Exit.success ∧
    (main mx []).exit.code = some 0 ∧
    (main mx []).st.calls = [] ∧
    (main mx []).st.stdout.filterMap Line.instOf = [] ∧
    (main mx []).st.stdout.filter Line.isStall = [Line.stallLast 0] ∧
    (main mx []).st.stdout.filter Line.isAck = [Line.ackLast 0] ∧
    Line.datIn0 ∈ (main mx []).st.stdout ∧
    (main mx []).st.stdout.filter Line.isTableRow
      = (List.range 15).map (fun k => Line.idRow k 0) ++ [Line.idDefault 0] := by
  have h : main mx [] = main 0 [] := rfl
  rw [h]
  decide

/-! ## Comment tokens that fit `peri` -/

theorem mainLoop_names (mx : Int) (toks : List String) (st : MainState)
    (hfit : ∀ t ∈ toks, isComment t = true → t.length < PERILEN) :
    mainLoop mx toks st = mainLoop mx (names toks) st := by
  induction toks generalizing st with
  | nil => rfl
  | cons t ts ih =>
    have hfit2 : ∀ u ∈ ts, isComment u = true → u.length < PERILEN :=
      fun u hu => hfit u (List.mem_cons_of_mem _ hu)
    cases hc : isComment t with
    | true =>
      have ht : ¬ PERILEN ≤ t.length := Nat.not_le.mpr (hfit t (List.mem_cons_self _ _) hc)
      rw [names_cons_comment t ts hc]
      simp only [mainLoop, ht, hc, if_true, if_false]
      exact ih st hfit2
    | false =>
      rw [names_cons_name t ts hc]
      simp only [mainLoop, hc]
      split
      · rfl
      · simp only [Bool.false_eq_true, if_false]
        split
        · rfl
        · split
          · rfl
          · exact ih _ hfit2

/-- Comment tokens that fit `peri` are skipped one token at a time.  Two
token sequences
whose comment tokens fit `peri` and that have the same accepted names (so
that they differ only by tokens starting with `#`, anywhere and in any
number) give the same run: the same exit, slots, pin ranges and text.  A run
is the run on its accepted names alone.  Only the token is skipped: in the
text `# out4` with `in4` on the next line the tokens are `#`, `out4` and
`in4`, and `out4` is an accepted name. -/
theorem comment_tokens_are_transparent (mx : Int) (toks toks' : List String)
    (hfit : ∀ t ∈ toks, isComment t = true → t.length < PERILEN)
    (hfit' : ∀ t ∈ toks', isComment t = true → t.length < PERILEN)
    (hsame : names toks = names toks') :
    main mx toks = main mx toks' ∧
    main mx toks = main mx (names toks) ∧
    (tokens "# out4\nin4\n".data = ["#", "out4", "in4"] ∧
      names ["#", "out4", "in4"] = ["out4", "in4"]) := by
  have h1 : main mx toks = main mx (names toks) := by
    simp only [main, mainLoop_names mx toks initState hfit]
  have h2 : main mx toks' = main mx (names toks') := by
    simp only [main, mainLoop_names mx toks' initState hfit']
  refine ⟨?_, h1, by decide⟩
  rw [h1, h2, hsame]

/-- An instance of the above: comments in front, between and after the
names. -/
theorem comment_tokens_are_transparent_witness :
    main 31 ["basys3", "#a", "out4"] = main 31 ["#b", "basys3", "#", "#c", "out4", "#d"] :=
  (comment_tokens_are_transparent 31 ["basys3", "#a", "out4"]
    ["#b", "basys3", "#", "#c", "out4", "#d"] (by decide) (by decide) (by decide)).1

/-! ## The header loop and the tokens (C16) -/

theorem fgetsRead_line (k : Nat) (l rest : List Char)
    (hnl : Char.ofNat 10 ∉ l) (hlen : l.length + 1 ≤ k) :
    fgetsRead k (l ++ Char.ofNat 10 :: rest) = (l ++ [Char.ofNat 10], rest) := by
  induction l generalizing k with
  | nil =>
    cases k with
    | zero => simp at hlen
    | succ k => simp [fgetsRead]
  | cons c cs ih =>
    cases k with
    | zero => simp at hlen
    | succ k =>
      have hc : c ≠ Char.ofNat 10 := fun h => hnl (by simp [h])
      have hcs : Char.ofNat 10 ∉ cs := fun h => hnl (List.mem_cons_of_mem _ h)
      have hk : cs.length + 1 ≤ k := by
        simp only [List.length_cons] at hlen
        omega
      have hih := ih k hcs hk
      show fgetsRead (k + 1) (c :: (cs ++ Char.ofNat 10 :: rest)) = _
      simp only [fgetsRead, hc, if_false, hih]
      rfl

theorem fgetsRead_tail (k : Nat) (l : List Char)
    (hnl : Char.ofNat 10 ∉ l) (hlen : l.length ≤ k) :
    fgetsRead k l = (l, []) := by
  induction l generalizing k with
  | nil => cases k <;> rfl
  | cons c cs ih =>
    cases k with
    | zero => simp at hlen
    | succ k =>
      have hc : c ≠ Char.ofNat 10 := fun h => hnl (by simp [h])
      have hcs : Char.ofNat 10 ∉ cs := fun h => hnl (List.mem_cons_of_mem _ h)
      have hk : cs.length ≤ k := by
        simp only [List.length_cons] at hlen
        omega
      simp only [fgetsRead, hc, if_false, ih k hcs hk]

theorem fgets_line (l rest : List Char)
    (hnl : Char.ofNat 10 ∉ l) (hlen : l.length + 1 ≤ MXPERILINE - 2) :
    fgets (MXPERILINE - 1) (l ++ Char.ofNat 10 :: rest) = some (l ++ [Char.ofNat 10], rest) := by
  have h := fgetsRead_line (MXPERILINE - 1 - 1) l rest hnl hlen
  cases l with
  | nil => simpa [fgets] using h
  | cons c cs => simpa [fgets] using h

theorem skipLines_unlines (h : List (List Char)) (j : Nat) (tail : List Char)
    (hnl : ∀ l ∈ h, Char.ofNat 10 ∉ l)
    (hlen : ∀ l ∈ h, l.length + 1 ≤ MXPERILINE - 2)
    (hj : h.length ≤ j) :
    skipLines j (unlines h ++ tail) = skipLines (j - h.length) tail := by
  induction h generalizing j with
  | nil => simp [unlines]
  | cons l ls ih =>
    cases j with
    | zero => simp at hj
    | succ j =>
      have hl := fgets_line l (unlines ls ++ tail) (hnl l (List.mem_cons_self _ _))
        (hlen l (List.mem_cons_self _ _))
      have hstep : unlines (l :: ls) ++ tail = l ++ Char.ofNat 10 :: (unlines ls ++ tail) := by
        simp [unlines]
      rw [hstep]
      simp only [skipLines, hl]
      rw [ih j (fun u hu => hnl u (List.mem_cons_of_mem _ hu))
        (fun u hu => hlen u (List.mem_cons_of_mem _ hu))
        (by simp only [List.length_cons] at hj; omega)]
      simp

theorem skipLines_short_tail (j : Nat) (tail : List Char)
    (hnl : Char.ofNat 10 ∉ tail) (hlen : tail.length ≤ MXPERILINE - 2)
    (hj : (if tail = [] then 0 else 1) < j) :
    skipLines j tail = none := by
  cases tail with
  | nil =>
    cases j with
    | zero => simp at hj
    | succ j => rfl
  | cons c cs =>
    have hread := fgetsRead_tail (MXPERILINE - 1 - 1) (c :: cs) hnl hlen
    cases j with
    | zero => simp at hj
    | succ j =>
      cases j with
      | zero => simp at hj
      | succ j => simp [skipLines, fgets, hread]

theorem dropWhile_head_false {p : Char → Bool} (l : List Char) (c : Char) (cs : List Char)
    (h : l.dropWhile p = c :: cs) : p c = false := by
  induction l with
  | nil => simp at h
  | cons x xs ih =>
    simp only [List.dropWhile_cons] at h
    split at h
    · exact ih h
    · next hx =>
      injection h with h1 _
      subst h1
      simpa using hx

theorem fscanfS_shorter (input : List Char) (r : String × List Char)
    (h : fscanfS input = some r) : r.2.length < input.length := by
  unfold fscanfS at h
  split at h
  · cases h
  · next c cs hd =>
    have hc : isspace c = false := dropWhile_head_false input c cs hd
    injection h with h
    subst h
    have h1 : (c :: cs).length ≤ input.length := by
      rw [← hd]
      exact (List.dropWhile_sublist _).length_le
    have h2 : ((c :: cs).dropWhile (fun x => !isspace x)) = cs.dropWhile (fun x => !isspace x) := by
      simp [List.dropWhile_cons, hc]
    have h3 : (cs.dropWhile (fun x => !isspace x)).length ≤ cs.length :=
      (List.dropWhile_sublist _).length_le
    simp only [h2]
    simp only [List.length_cons] at h1
    omega

/-- More `fscanf` calls than the input has characters deliver nothing more. -/
theorem tokensFuel_eq (f g : Nat) (input : List Char)
    (hf : input.length ≤ f) (hg : input.length ≤ g) :
    tokensFuel f input = tokensFuel g input := by
  induction f generalizing g input with
  | zero =>
    have : input = [] := List.length_eq_zero.mp (Nat.le_zero.mp hf)
    subst this
    cases g <;> rfl
  | succ f ih =>
    cases g with
    | zero =>
      have : input = [] := List.length_eq_zero.mp (Nat.le_zero.mp hg)
      subst this
      rfl
    | succ g =>
      simp only [tokensFuel]
      cases hr : fscanfS input with
      | none => rfl
      | some r =>
        have hlt := fscanfS_shorter input r hr
        simp only
        rw [ih g r.2 (by omega) (by omega)]

theorem tokens_of_fscanfS (input : List Char) (r : String × List Char)
    (h : fscanfS input = some r) : tokens input = r.1 :: tokens r.2 := by
  have hlt := fscanfS_shorter input r h
  unfold tokens
  cases hin : input.length with
  | zero => omega
  | succ n =>
    simp only [tokensFuel, h]
    rw [tokensFuel_eq n r.2.length r.2 (by omega) (Nat.le_refl _)]

theorem tokens_of_eof (input : List Char) (h : fscanfS input = none) : tokens input = [] := by
  unfold tokens
  cases input.length with
  | zero => rfl
  | succ n => simp only [tokensFuel, h]

theorem dropWhile_space_append (ws rest : List Char) (hws : ∀ c ∈ ws, isspace c = true) :
    (ws ++ rest).dropWhile isspace = rest.dropWhile isspace := by
  induction ws with
  | nil => rfl
  | cons c cs ih =>
    simp only [List.cons_append, List.dropWhile_cons, hws c (List.mem_cons_self _ _), if_true]
    exact ih (fun x hx => hws x (List.mem_cons_of_mem _ hx))

theorem takeWhile_word (w rest : List Char) (hw : ∀ c ∈ w, isspace c = false)
    (hrest : ∀ c, rest.head? = some c → isspace c = true) :
    (w ++ rest).takeWhile (fun x => !isspace x) = w ∧
    (w ++ rest).dropWhile (fun x => !isspace x) = rest := by
  induction w with
  | nil =>
    cases rest with
    | nil => simp
    | cons r rs =>
      have := hrest r rfl
      simp [List.takeWhile_cons, List.dropWhile_cons, this]
  | cons c cs ih =>
    have hc := hw c (List.mem_cons_self _ _)
    have ih2 := ih (fun x hx => hw x (List.mem_cons_of_mem _ hx))
    simp [List.takeWhile_cons, List.dropWhile_cons, hc, ih2.1, ih2.2]

theorem fscanfS_word (ws w rest : List Char) (hws : ∀ c ∈ ws, isspace c = true)
    (hne : w ≠ []) (hw : ∀ c ∈ w, isspace c = false)
    (hrest : ∀ c, rest.head? = some c → isspace c = true) :
    fscanfS (ws ++ w ++ rest) = some (String.mk w, rest) := by
  cases w with
  | nil => exact absurd rfl hne
  | cons c cs =>
    have hc := hw c (List.mem_cons_self _ _)
    have hdrop : (ws ++ (c :: cs) ++ rest).dropWhile isspace = c :: (cs ++ rest) := by
      rw [List.append_assoc, dropWhile_space_append ws _ hws]
      simp [List.dropWhile_cons, hc]
    obtain ⟨h1, h2⟩ := takeWhile_word (c :: cs) rest hw hrest
    simp only [List.cons_append] at h1 h2
    unfold fscanfS
    rw [hdrop]
    simp only [h1, h2]

theorem fscanfS_space (ws : List Char) (hws : ∀ c ∈ ws, isspace c = true) :
    fscanfS ws = none := by
  have h := dropWhile_space_append ws [] hws
  simp only [List.append_nil, List.dropWhile_nil] at h
  unfold fscanfS
  rw [h]

/-- C16, the code at the failing input: in the text below the first line
has 118 characters in front of its newline, 119 with it, which is within
the `MXPERILINE` = 120 of the source; the lines 2 to 7 are short, line 8 is
`out4`, and `basys3` follows the eighth newline.  By the claim `basys3` is
the only name.  The first `fgets(line, MXPERILINE-1, ...)` call reads the 118
characters and the second reads the newline alone, so the eight calls end
after line 7: the loop leaves line 8 in the input, and `out4` is read as the
first name and becomes slot 0. -/
theorem header_line_of_118_takes_two_reads :
    (List.replicate 118 'x').length + 1 ≤ MXPERILINE ∧
    skipLines 8 (List.replicate 118 'x' ++ "\n2\n3\n4\n5\n6\n7\nout4\nbasys3\n".data)
      = some "out4\nbasys3\n".data ∧
    (mainOnText 31
        (List.replicate 118 'x' ++ "\n2\n3\n4\n5\n6\n7\nout4\nbasys3\n".data)).st.calls.map
        Call.peri = ["out4", "basys3"] ∧
    tokens "basys3\n".data = ["basys3"] ∧
    mainOnText 31 (List.replicate 118 'x' ++ "\n2\n3\n4\n5\n6\n7\nout4\nbasys3\n".data)
      ≠ main 31 (tokens "basys3\n".data) := by
  decide

/-- Header lines that one read takes whole: for header lines of at most
`MXPERILINE - 3` = 117
characters in front of their newline (so that one `fgets` call with room
for 118 characters takes the line with its newline), the loader discards
exactly the first 8 lines whatever their content, and the run is the run on
the tokens of the text after the eighth newline.  These tokens are the
maximal runs of characters that are not white space: white space alone gives
no token, and a word between white space and white space or the end of the
text is the next token.  A text of fewer than 8 such lines, a last line
without newline counted as a line, ends the run with exit status 1 after the
message on the standard output, without any `perilist` call. -/
theorem header_skip (mx : Int) (h : List (List Char)) (rest tail : List Char)
    (hnl : ∀ l ∈ h, Char.ofNat 10 ∉ l)
    (hlen : ∀ l ∈ h, l.length ≤ MXPERILINE - 3)
    (htnl : Char.ofNat 10 ∉ tail) (htlen : tail.length ≤ MXPERILINE - 2) :
    (h.length = 8 →
      skipLines 8 (unlines h ++ rest) = some rest ∧
      mainOnText mx (unlines h ++ rest) = main mx (tokens rest)) ∧
    (h.length + (if tail = [] then 0 else 1) < 8 →
      (mainOnText mx (unlines h ++ tail)).exit = Exit.notEnoughRom ∧
      (mainOnText mx (unlines h ++ tail)).exit.code = some 1 ∧
      (mainOnText mx (unlines h ++ tail)).st.calls = [] ∧
      (mainOnText mx (unlines h ++ tail)).st.stdout = [Line.notEnoughRom]) ∧
    (∀ ws : List Char, (∀ c ∈ ws, isspace c = true) → tokens ws = []) ∧
    (∀ ws w after : List Char, (∀ c ∈ ws, isspace c = true) → w ≠ [] →
      (∀ c ∈ w, isspace c = false) → (∀ c, after.head? = some c → isspace c = true) →
      tokens (ws ++ w ++ after) = String.mk w :: tokens after) := by
  have hlen2 : ∀ l ∈ h, l.length + 1 ≤ MXPERILINE - 2 := by
    intro l hl
    have := hlen l hl
    simp only [MXPERILINE] at this ⊢
    omega
  refine ⟨?_, ?_, ?_, ?_⟩
  · intro h8
    have hs : skipLines 8 (unlines h ++ rest) = some rest := by
      rw [skipLines_unlines h 8 rest hnl hlen2 (by omega), h8]
      rfl
    exact ⟨hs, by simp only [mainOnText, hs]⟩
  · intro hlt
    have hs : skipLines 8 (unlines h ++ tail) = none := by
      rw [skipLines_unlines h 8 tail hnl hlen2 (by omega)]
      exact skipLines_short_tail _ tail htnl htlen (by omega)
    have hm : mainOnText mx (unlines h ++ tail)
        = ⟨Exit.notEnoughRom, { initState with stdout := [Line.notEnoughRom] }⟩ := by
      simp only [mainOnText, hs]
    rw [hm]
    exact ⟨rfl, rfl, rfl, rfl⟩
  · intro ws hws
    exact tokens_of_eof ws (fscanfS_space ws hws)
  · intro ws w after hws hne hw hafter
    exact tokens_of_fscanfS _ _ (fscanfS_word ws w after hws hne hw hafter)

/-- An instance of the above: eight header lines `h` and the names
`basys3 out4`. -/
theorem header_skip_witness :
    mainOnText 31
        (unlines (List.replicate 8 [Char.ofNat 104]) ++ "basys3 out4\n".data)
      = main 31 (tokens "basys3 out4\n".data) :=
  ((header_skip 31 (List.replicate 8 [Char.ofNat 104]) "basys3 out4\n".data []
    (by decide) (by decide) (by decide) (by decide)).1 (by decide)).2

/-! ## The file `sources.tmp` (C17) -/

theorem allocate_sources_pos (mx : Int) (ds : List PDESC) (st : MainState)
    (h : st.slot ≠ 0) :
    (allocate mx ds st).sources = st.sources ++ ds.map PDESC.incname := by
  induction ds generalizing st with
  | nil => simp [allocate]
  | cons d ds ih =>
    simp only [allocate]
    rw [ih (advance d (emit mx d st)) (by simp [advance, emit])]
    simp [advance, emit, h]

theorem allocate_sources_zero (mx : Int) (ds : List PDESC) (st : MainState)
    (h : st.slot = 0) :
    (allocate mx ds st).sources = st.sources ++ (ds.drop 1).map PDESC.incname := by
  cases ds with
  | nil => simp [allocate]
  | cons d ds =>
    simp only [allocate]
    rw [allocate_sources_pos mx ds (advance d (emit mx d st)) (by simp [advance, emit])]
    simp [advance, emit, h]

theorem main_sources (mx : Int) (toks : List String)
    (hfit : ∀ t ∈ toks, t.length < PERILEN)
    (hvalid : ∀ t ∈ names toks, ∃ d ∈ pdesc, d.periname = t)
    (hcap : (names toks).length ≤ NUMDRIVR) :
    (main mx toks).st.sources = ((descs toks).drop 1).map PDESC.incname := by
  have hloop := mainLoop_append mx toks [] initState hfit hvalid
    (by simpa [initState] using hcap)
  simp only [List.append_nil, mainLoop] at hloop
  simp only [main, hloop]
  rw [allocate_sources_zero mx (descs toks) initState rfl]
  simp [initState]

/-- C17: on valid input that fits the table, `sources.tmp` holds one include
line for each slot with an index from 1 on, in ascending slot order, naming
the `incname` of the row in that slot, and no line for slot 0; it has (slot
count - 1) lines.  The line for `touch4` names `count4.v`. -/
theorem sources_has_one_line_per_later_slot (mx : Int) (toks : List String)
    (hfit : ∀ t ∈ toks, t.length < PERILEN)
    (hvalid : ∀ t ∈ names toks, ∃ d ∈ pdesc, d.periname = t)
    (hcap : (names toks).length ≤ NUMDRIVR) :
    (main mx toks).st.sources = ((descs toks).drop 1).map PDESC.incname ∧
    (main mx toks).st.sources.length = (names toks).length - 1 ∧
    (∀ (k : Nat) (d : PDESC), (descs toks)[k + 1]? = some d →
      (main mx toks).st.sources[k]? = some d.incname) ∧
    ((descs toks).map PDESC.periname = names toks ∧ ∀ d ∈ descs toks, d ∈ pdesc) ∧
    (main 31 ["basys3", "touch4"]).st.sources.map includeLine
      = ["\x60include \x22../../../peripherals/count4.v\x22"] := by
  have hsrc := main_sources mx toks hfit hvalid hcap
  have hlen := descs_length toks hvalid
  refine ⟨hsrc, ?_, ?_, descs_valid toks hvalid, by decide⟩
  · rw [hsrc]
    simp [hlen]
  · intro k d hd
    rw [hsrc]
    simp [List.getElem?_map, List.getElem?_drop, Nat.add_comm 1 k, hd]

/-- Witness of C17: `basys3 touch4 out4` gives the lines for `count4` and
`out4`. -/
theorem sources_has_one_line_per_later_slot_witness :
    (main 31 ["basys3", "touch4", "out4"]).st.sources
      = ((descs ["basys3", "touch4", "out4"]).drop 1).map PDESC.incname :=
  (sources_has_one_line_per_later_slot 31 ["basys3", "touch4", "out4"]
    (by decide) (by decide) (by decide)).1

/-! ## The pin bus and the address decode (C18) -/

/-- C18 as stated fails for the pin count 0: on `basys3 null` slot 1 holds
the row of `null` with `npins = 0`, and the pin bus is declared as
`tri [-1:0] p01pins;`, a range of two indices, not of zero. -/
theorem pin_bus_counterexample :
    (main 31 ["basys3", "null"]).exit = Exit.success ∧
    (main 31 ["basys3", "null"]).st.calls[1]? = some ⟨1, 0, 0x0, 0, "null"⟩ ∧
    (main 31 ["basys3", "null"]).st.stdout.filterMap Line.triOf = [(-1, 1)] ∧
    rangeWidth (-1) 0 = 2 ∧
    (Line.tri (-1) 1).render = "    tri [-1:0] p01pins;" := by
  decide

/-- C18 amended: for every slot `addr` other than 0 and every pin count
`numpins`, `perilist` declares one pin bus, `tri [numpins-1:0]` for that
slot, which has exactly `numpins` bits when `numpins` is at least 1; and it
prints one address decode, for the strobe of that slot, which compares the
high address bits with exactly `addr`. -/
theorem pin_bus_and_decode (mx : Int) (addr startpin dirs numpins : Nat) (peri : String)
    (haddr : addr ≠ 0) :
    (perilist mx addr startpin dirs numpins peri).filterMap Line.triOf
      = [((numpins : Int) - 1, addr)] ∧
    (1 ≤ numpins → rangeWidth ((numpins : Int) - 1) 0 = numpins) ∧
    (perilist mx addr startpin dirs numpins peri).filterMap Line.stbOf = [(addr, addr)] := by
  refine ⟨?_, ?_, ?_⟩
  · simp only [perilist, haddr, if_false, List.filterMap_append]
    rw [pinLoop_filterMap_none Line.triOf (fun _ _ _ => rfl) (fun _ _ _ => rfl)]
    simp [List.filterMap_cons, Line.triOf]
  · intro h
    unfold rangeWidth
    omega
  · simp only [perilist, haddr, if_false, List.filterMap_append]
    rw [pinLoop_filterMap_none Line.stbOf (fun _ _ _ => rfl) (fun _ _ _ => rfl)]
    simp [List.filterMap_cons, Line.stbOf]

/-- Witness of C18 amended: slot 1 with the four pins of `out4`. -/
theorem pin_bus_and_decode_witness :
    (perilist 31 1 0 0xf 4 "out4").filterMap Line.triOf = [(((4 : Nat) : Int) - 1, 1)] :=
  (pin_bus_and_decode 31 1 0 0xf 4 "out4" (by decide)).1

/-! ## The output of an aborted run (C19) -/

theorem main_at_unknown (mx : Int) (pre post : List String) (bad : String)
    (hfit : ∀ t ∈ pre, t.length < PERILEN)
    (hvalid : ∀ t ∈ names pre, ∃ d ∈ pdesc, d.periname = t)
    (hcap : (names pre).length ≤ NUMDRIVR)
    (hfitbad : bad.length < PERILEN)
    (hname : isComment bad = false)
    (hnul : Char.ofNat 0 ∉ bad.data)
    (hunknown : ∀ d ∈ pdesc, d.periname ≠ bad) :
    main mx (pre ++ bad :: post)
      = ⟨Exit.unknownPeripheral bad, allocate mx (descs pre) initState⟩ := by
  have hnone : lookup bad = none := (lookup_eq_none_iff bad hnul).mpr hunknown
  have hb : ¬ PERILEN ≤ bad.length := Nat.not_le.mpr hfitbad
  have hloop := mainLoop_append mx pre (bad :: post) initState hfit hvalid
    (by simpa [initState] using hcap)
  simp only [main, hloop, mainLoop, hb, hname, hnone, if_false]
  simp

/-- C19: when the first unknown token `bad` comes after `k` accepted names
(the tokens up to `bad` fit `peri`, and at most 16 accepted names come
before it), the standard output of the aborted run is
exactly the text of the `k` calls of `perilist` for these names, which is
the leading part of the output of the run on the tokens in front of `bad`
alone; that run ends with `exit(0)` and goes on with the links and the
table.  The aborted output holds no data link, no term or head of the
`STALL_I` and `ACK_I` expressions, no `endmodule` and no line of the table. -/
theorem aborted_output_is_the_instantiations (mx : Int) (pre post : List String)
    (bad : String)
    (hfit : ∀ t ∈ pre, t.length < PERILEN)
    (hvalid : ∀ t ∈ names pre, ∃ d ∈ pdesc, d.periname = t)
    (hcap : (names pre).length ≤ NUMDRIVR)
    (hfitbad : bad.length < PERILEN)
    (hname : isComment bad = false)
    (hnul : Char.ofNat 0 ∉ bad.data)
    (hunknown : ∀ d ∈ pdesc, d.periname ≠ bad) :
    ((main mx (pre ++ bad :: post)).st.calls.length = (names pre).length ∧
      (main mx (pre ++ bad :: post)).st.stdout
        = (main mx (pre ++ bad :: post)).st.calls.flatMap (perilistOf mx)) ∧
    ((main mx pre).exit = Exit.success ∧
      (main mx pre).st.stdout
        = (main mx (pre ++ bad :: post)).st.stdout
          ++ stitch (names pre).length ++ idTable (main mx pre).st.drividtbl) ∧
    ((main mx (pre ++ bad :: post)).st.stdout.filter Line.isDataLink = [] ∧
      (main mx (pre ++ bad :: post)).st.stdout.filter Line.isStall = [] ∧
      (main mx (pre ++ bad :: post)).st.stdout.filter Line.isAck = [] ∧
      (main mx (pre ++ bad :: post)).st.stdout.filter Line.isTableRow = []) ∧
    (Line.stallHdr ∉ (main mx (pre ++ bad :: post)).st.stdout ∧
      Line.ackHdr ∉ (main mx (pre ++ bad :: post)).st.stdout ∧
      Line.endmodule ∉ (main mx (pre ++ bad :: post)).st.stdout ∧
      Line.tblModule ∉ (main mx (pre ++ bad :: post)).st.stdout) := by
  have hrun := main_at_unknown mx pre post bad hfit hvalid hcap hfitbad hname hnul hunknown
  obtain ⟨hexit, hcalls, htbl, hout⟩ := main_valid mx pre hfit hvalid hcap
  have hlen := descs_length pre hvalid
  have hc : (main mx (pre ++ bad :: post)).st.calls = callsFrom 0 0 (descs pre) := by
    rw [hrun]
    simp [allocate_calls, initState]
  have hs : (main mx (pre ++ bad :: post)).st.stdout
      = (callsFrom 0 0 (descs pre)).flatMap (perilistOf mx) := by
    rw [hrun]
    simp [allocate_stdout, initState]
  have hin : ∀ l ∈ (main mx (pre ++ bad :: post)).st.stdout, l.inPerilist = true := by
    intro l hl
    rw [hs] at hl
    obtain ⟨c, _, hc⟩ := List.mem_flatMap.mp hl
    exact perilist_inPerilist mx _ _ _ _ _ l hc
  refine ⟨⟨?_, ?_⟩, ⟨hexit, ?_⟩, ⟨?_, ?_, ?_, ?_⟩, ⟨?_, ?_, ?_, ?_⟩⟩
  · rw [hc, callsFrom_length, hlen]
  · rw [hs, hc]
  · rw [hout, hs, htbl]
  · rw [hs]
    exact calls_filter mx _ _ (fun l hl => by cases l <;> first | rfl | cases hl)
  · rw [hs]
    exact calls_filter mx _ _ (fun l hl => by cases l <;> first | rfl | cases hl)
  · rw [hs]
    exact calls_filter mx _ _ (fun l hl => by cases l <;> first | rfl | cases hl)
  · rw [hs]
    exact calls_filter mx _ _ (fun l hl => by cases l <;> first | rfl | cases hl)
  · exact fun h => by cases hin _ h
  · exact fun h => by cases hin _ h
  · exact fun h => by cases hin _ h
  · exact fun h => by cases hin _ h

/-- Witness of C19: the token `OUT4` after `basys3 out4`. -/
theorem aborted_output_is_the_instantiations_witness :
    (main 31 ["basys3", "out4"]).st.stdout
      = (main 31 (["basys3", "out4"] ++ "OUT4" :: ["in4"])).st.stdout
        ++ stitch (names ["basys3", "out4"]).length
        ++ idTable (main 31 ["basys3", "out4"]).st.drividtbl :=
  (aborted_output_is_the_instantiations 31 ["basys3", "out4"] ["in4"] "OUT4"
    (by decide) (by decide) (by decide) (by decide) (by decide) (by decide)
    (by decide)).2.1.2

/-! ## No physical pin is bound twice (C20) -/

theorem pinLoop_physPin (mx : Int) (addr startpin dirs n i : Nat) :
    (pinLoop mx addr startpin dirs n i).filterMap Line.physPin
      = if (startpin : Int) + 1 > mx then []
        else (List.range n).map (fun j => startpin + (i + j)) := by
  split
  · next h => rw [pinLoop_of_gt mx addr startpin dirs n i h]; rfl
  · next h =>
    rw [pinLoop_of_le mx addr startpin dirs n i (by omega), List.filterMap_map]
    have hf : (Line.physPin ∘ fun j =>
          if dirs &&& (1 <<< (i + j)) ≠ 0 then Line.pinOut (startpin + (i + j)) addr (i + j)
          else Line.pinIn addr (i + j) (startpin + (i + j)))
        = some ∘ (fun j => startpin + (i + j)) := by
      funext j
      simp only [Function.comp]
      split <;> rfl
    rw [hf, List.filterMap_eq_map]

theorem perilist_physPin (mx : Int) (addr startpin dirs numpins : Nat) (peri : String) :
    (perilist mx addr startpin dirs numpins peri).filterMap Line.physPin
      = if addr = 0 then []
        else (pinLoop mx addr startpin dirs numpins 0).filterMap Line.physPin := by
  simp only [perilist, List.filterMap_append]
  split
  · rfl
  · simp [List.filterMap_cons, Line.physPin]

/-- The physical pins that one call binds lie in its pin range and are
pairwise distinct. -/
theorem perilist_physPin_range (mx : Int) (addr startpin dirs numpins : Nat) (peri : String) :
    ((perilist mx addr startpin dirs numpins peri).filterMap Line.physPin).Nodup ∧
    ∀ x ∈ (perilist mx addr startpin dirs numpins peri).filterMap Line.physPin,
      startpin ≤ x ∧ x < startpin + numpins := by
  rw [perilist_physPin, pinLoop_physPin]
  split
  · simp
  · split
    · simp
    · constructor
      · refine List.Nodup.map ?_ (List.nodup_range numpins)
        intro a b hab
        simp only at hab
        omega
      · intro x hx
        obtain ⟨j, hj, rfl⟩ := List.mem_map.mp hx
        have := List.mem_range.mp hj
        omega

theorem filterMap_flatMap_calls {β : Type} (mx : Int) (f : Line → Option β) (cs : List Call) :
    (cs.flatMap (perilistOf mx)).filterMap f
      = cs.flatMap (fun c => (perilistOf mx c).filterMap f) := by
  induction cs with
  | nil => rfl
  | cons c cs ih => simp only [List.flatMap_cons, List.filterMap_append, ih]

/-- The pin bindings of successive calls take their physical pins from
consecutive ranges, so none is bound twice; this holds for any rows and any
`MX_PCPIN`. -/
theorem callsFrom_physPin_nodup (mx : Int) (ds : List PDESC) (slot pin : Nat) :
    (((callsFrom slot pin ds).flatMap (perilistOf mx)).filterMap Line.physPin).Nodup ∧
    ∀ x ∈ ((callsFrom slot pin ds).flatMap (perilistOf mx)).filterMap Line.physPin,
      pin ≤ x := by
  induction ds generalizing slot pin with
  | nil => simp [callsFrom]
  | cons d ds ih =>
    obtain ⟨hn, hr⟩ := perilist_physPin_range mx slot pin d.dirs d.npins d.incname
    obtain ⟨ihn, ihr⟩ := ih (slot + 1) (pin + d.npins)
    simp only [callsFrom, List.flatMap_cons, List.filterMap_append, perilistOf]
    constructor
    · rw [List.nodup_append]
      refine ⟨hn, ihn, ?_⟩
      intro x hx hx'
      have h1 := (hr x hx).2
      have h2 := ihr x hx'
      omega
    · intro x hx
      rcases List.mem_append.mp hx with h | h
      · exact (hr x h).1
      · have := ihr x h
        omega

/-- C20: on valid input that fits the table, for any `MX_PCPIN`, the
physical pins named by the pin bindings of the output are those of the slots,
one slot after the other, each slot within its own pin range, and the list
of them has no repetition: no index is bound twice within a slot, and none
is bound by two slots.  The same holds for the calls made for any list of
rows, whatever their pin counts (natural numbers here, added without the
wrap-around of `int`). -/
theorem no_pin_is_bound_twice (mx : Int) (toks : List String)
    (hfit : ∀ t ∈ toks, t.length < PERILEN)
    (hvalid : ∀ t ∈ names toks, ∃ d ∈ pdesc, d.periname = t)
    (hcap : (names toks).length ≤ NUMDRIVR) :
    ((main mx toks).st.stdout.filterMap Line.physPin).Nodup ∧
    (main mx toks).st.stdout.filterMap Line.physPin
      = (main mx toks).st.calls.flatMap
          (fun c => (perilistOf mx c).filterMap Line.physPin) ∧
    (∀ c ∈ (main mx toks).st.calls, ∀ x ∈ (perilistOf mx c).filterMap Line.physPin,
      c.startpin ≤ x ∧ x < c.startpin + c.numpins) ∧
    (∀ (ds : List PDESC) (slot pin : Nat),
      (((callsFrom slot pin ds).flatMap (perilistOf mx)).filterMap Line.physPin).Nodup) := by
  obtain ⟨_, hcalls, _, hout⟩ := main_valid mx toks hfit hvalid hcap
  obtain ⟨h1, h2⟩ := afterLoop_filterMap Line.physPin
    (fun l hl => by cases l <;> first | rfl | cases hl) (names toks).length
    ((descs toks).map PDESC.drivid ++ List.replicate (NUMDRIVR - (names toks).length) 0)
  have hpins : (main mx toks).st.stdout.filterMap Line.physPin
      = ((callsFrom 0 0 (descs toks)).flatMap (perilistOf mx)).filterMap Line.physPin := by
    rw [hout, List.filterMap_append, List.filterMap_append, h1, h2]
    simp
  refine ⟨?_, ?_, ?_, fun ds slot pin => (callsFrom_physPin_nodup mx ds slot pin).1⟩
  · rw [hpins]
    exact (callsFrom_physPin_nodup mx _ 0 0).1
  · rw [hpins, hcalls, filterMap_flatMap_calls]
  · intro c _ x hx
    exact (perilist_physPin_range mx c.addr c.startpin c.dirs c.numpins c.peri).2 x hx

/-- Witness of C20: the eight pins of `basys3 out4 in4`. -/
theorem no_pin_is_bound_twice_witness :
    ((main 31 ["basys3", "out4", "in4"]).st.stdout.filterMap Line.physPin).Nodup :=
  (no_pin_is_bound_twice 31 ["basys3", "out4", "in4"]
    (by decide) (by decide) (by decide)).1

/-! ## All pins of a slot or none (C21) -/

/-- C21: the test that ends the pin loop does not look at the pin position.
For every slot `addr` other than 0, the number of pin bindings that
`perilist` prints is 0 or `numpins`; it is 0 exactly when `startpin` is at
least `MX_PCPIN` (that is, `startpin + 1 > MX_PCPIN`) or `numpins` is 0.
Otherwise every position `p` from 0 to `numpins - 1` is bound, in ascending
order, to the physical pin `startpin + p`, as an output binding when bit `p`
of `dirs` is set and as an input binding when it is clear. -/
theorem pin_bindings_all_or_none (mx : Int) (addr startpin dirs numpins : Nat)
    (peri : String) (haddr : addr ≠ 0) :
    (((perilist mx addr startpin dirs numpins peri).filter Line.isPin).length = 0 ∨
      ((perilist mx addr startpin dirs numpins peri).filter Line.isPin).length = numpins) ∧
    (((perilist mx addr startpin dirs numpins peri).filter Line.isPin).length = 0 ↔
      (mx ≤ (startpin : Int) ∨ numpins = 0)) ∧
    ((mx ≤ (startpin : Int) ↔ (startpin : Int) + 1 > mx) ∧
      (¬ (mx ≤ (startpin : Int) ∨ numpins = 0) →
        (perilist mx addr startpin dirs numpins peri).filter Line.isPin
          = (List.range numpins).map (fun p =>
              if dirs &&& (1 <<< p) ≠ 0 then Line.pinOut (startpin + p) addr p
              else Line.pinIn addr p (startpin + p)) ∧
        (perilist mx addr startpin dirs numpins peri).filterMap Line.physPin
          = (List.range numpins).map (fun p => startpin + p))) := by
  have hpins : (perilist mx addr startpin dirs numpins peri).filter Line.isPin
      = pinLoop mx addr startpin dirs numpins 0 := by
    rw [perilist_filter_isPin]
    simp [haddr]
  have hphys : (perilist mx addr startpin dirs numpins peri).filterMap Line.physPin
      = (pinLoop mx addr startpin dirs numpins 0).filterMap Line.physPin := by
    rw [perilist_physPin]
    simp [haddr]
  by_cases hgt : (startpin : Int) + 1 > mx
  · have hnil := pinLoop_of_gt mx addr startpin dirs numpins 0 hgt
    rw [hpins, hnil]
    refine ⟨Or.inl rfl, ?_, ?_, ?_⟩
    · constructor
      · intro _
        exact Or.inl (by omega)
      · intro _
        rfl
    · constructor <;> intro <;> omega
    · intro h
      exact absurd (Or.inl (by omega)) h
  · have hle : (startpin : Int) + 1 ≤ mx := by omega
    have hform := pinLoop_of_le mx addr startpin dirs numpins 0 hle
    simp only [Nat.zero_add] at hform
    rw [hpins, hform]
    refine ⟨Or.inr (by simp), ?_, ?_, ?_⟩
    · simp only [List.length_map, List.length_range]
      constructor
      · intro h
        exact Or.inr h
      · rintro (h | h)
        · omega
        · exact h
    · constructor <;> intro <;> omega
    · intro _
      refine ⟨rfl, ?_⟩
      rw [hphys, pinLoop_physPin]
      simp [hgt]

/-- Witness of C21: slot 9 at pin 32 on a board with `MX_PCPIN = 33` binds
all four pins of `out4`. -/
theorem pin_bindings_all_or_none_witness :
    ((perilist 33 9 32 0xf 4 "out4").filter Line.isPin).length = 0 ↔
      ((33 : Int) ≤ ((32 : Nat) : Int) ∨ (4 : Nat) = 0) :=
  (pin_bindings_all_or_none 33 9 32 0xf 4 "out4" (by decide)).2.1

/-! ## The data links as one path (C22) -/

theorem filterMap_map_of_none {α β γ : Type} (g : β → Option γ) (f : α → β) (l : List α)
    (h : ∀ x, g (f x) = none) : (l.map f).filterMap g = [] := by
  induction l with
  | nil => rfl
  | cons a as ih => simp [List.filterMap_cons, h, ih]

theorem filterMap_map_of_some {α β γ : Type} (g : β → Option γ) (f : α → β) (k : α → γ)
    (l : List α) (h : ∀ x, g (f x) = some (k x)) : (l.map f).filterMap g = l.map k := by
  induction l with
  | nil => rfl
  | cons a as ih => simp [List.filterMap_cons, h, ih]

/-- A reading that finds nothing on the lines of `perilist` finds nothing in
the text of the calls. -/
theorem calls_filterMap {β : Type} (mx : Int) (cs : List Call) (f : Line → Option β)
    (hf : ∀ l, l.inPerilist = true → f l = none) :
    (cs.flatMap (perilistOf mx)).filterMap f = [] := by
  rw [List.filterMap_eq_nil_iff]
  intro l hl
  obtain ⟨c, _, hc⟩ := List.mem_flatMap.mp hl
  exact hf l (perilist_inPerilist mx _ _ _ _ _ l hc)

theorem idTable_filterMap_datInOf (tbl : List Nat) :
    (idTable tbl).filterMap Line.datInOf = [] := by
  simp only [idTable, List.filterMap_append]
  rw [filterMap_map_of_none _ _ _ (fun _ => rfl)]
  rfl

theorem idTable_filterMap_datOutOf (tbl : List Nat) :
    (idTable tbl).filterMap Line.datOutOf = [] := by
  simp only [idTable, List.filterMap_append]
  rw [filterMap_map_of_none _ _ _ (fun _ => rfl)]
  rfl

theorem stitch_filterMap_datInOf (slot : Nat) :
    (stitch slot).filterMap Line.datInOf
      = (List.range (slot - 1)).map (fun i : Nat => (i : Int)) ++ [(slot : Int) - 1] := by
  simp only [stitch, List.filterMap_append]
  rw [filterMap_map_of_some Line.datInOf (fun i => Line.datLink i (i + 1))
      (fun i : Nat => (i : Int)) _ (fun _ => rfl),
    filterMap_map_of_none _ _ _ (fun _ => rfl), filterMap_map_of_none _ _ _ (fun _ => rfl)]
  simp [List.filterMap_cons, Line.datInOf]

theorem stitch_filterMap_datOutOf (slot : Nat) :
    (stitch slot).filterMap Line.datOutOf
      = 0 :: (List.range (slot - 1)).map (fun i => i + 1) := by
  simp only [stitch, List.filterMap_append]
  rw [filterMap_map_of_some Line.datOutOf (fun i => Line.datLink i (i + 1))
      (fun i : Nat => i + 1) _ (fun _ => rfl),
    filterMap_map_of_none _ _ _ (fun _ => rfl), filterMap_map_of_none _ _ _ (fun _ => rfl)]
  simp [List.filterMap_cons, Line.datOutOf]

/-- C22: on valid input that fits the table and has `n` slots, `n` at least
1, the data links form one path through all slots.  The slots whose data
input is assigned are 0, 1, ..., `n - 1`, each once; the slots whose data
output is read are 0, 1, ..., `n - 1`, each once.  The links are: `bi0datin`
from the output of slot 0; for each `i` below `n - 1`, the input of slot `i`
from the output of slot `i + 1`; and the input of slot `n - 1` from
`bi0datout`.  No link names a slot outside 0 to `n - 1`, the slots of the
`perilist` calls. -/
theorem data_links_form_one_path (mx : Int) (toks : List String)
    (hfit : ∀ t ∈ toks, t.length < PERILEN)
    (hvalid : ∀ t ∈ names toks, ∃ d ∈ pdesc, d.periname = t)
    (hcap : (names toks).length ≤ NUMDRIVR)
    (hne : 0 < (names toks).length) :
    (main mx toks).st.stdout.filterMap Line.datInOf
      = (List.range (names toks).length).map (fun i : Nat => (i : Int)) ∧
    (main mx toks).st.stdout.filterMap Line.datOutOf = List.range (names toks).length ∧
    (main mx toks).st.stdout.filter Line.isDataLink
      = [Line.datIn0]
        ++ (List.range ((names toks).length - 1)).map (fun i => Line.datLink i (i + 1))
        ++ [Line.datLast (((names toks).length - 1 : Nat) : Int)] ∧
    (main mx toks).st.calls.map Call.addr = List.range (names toks).length := by
  obtain ⟨_, hcalls, _, hout⟩ := main_valid mx toks hfit hvalid hcap
  have hlen := descs_length toks hvalid
  obtain ⟨m, hm⟩ : ∃ m, (names toks).length = m + 1 := ⟨(names toks).length - 1, by omega⟩
  refine ⟨?_, ?_, ?_, ?_⟩
  · rw [hout, List.filterMap_append, List.filterMap_append,
      calls_filterMap mx _ _ (fun l hl => by cases l <;> first | rfl | cases hl),
      stitch_filterMap_datInOf, idTable_filterMap_datInOf, hm]
    simp [List.range_succ]
  · rw [hout, List.filterMap_append, List.filterMap_append,
      calls_filterMap mx _ _ (fun l hl => by cases l <;> first | rfl | cases hl),
      stitch_filterMap_datOutOf, idTable_filterMap_datOutOf, hm]
    simp [List.range_succ_eq_map]
  · rw [hout, List.filter_append, List.filter_append,
      calls_filter mx _ _ (fun l hl => by cases l <;> first | rfl | cases hl),
      stitch_filter_isDataLink,
      idTable_filter_of_not_table _ _ (fun _ _ => rfl) (fun _ => rfl) rfl rfl rfl rfl rfl rfl]
    have hcast : (((names toks).length : Nat) : Int) - 1
        = (((names toks).length - 1 : Nat) : Int) := by omega
    simp [hcast]
  · rw [hcalls, callsFrom_addr, hlen]
    simp

/-- Witness of C22: the path through the three slots of `basys3 out4 in4`. -/
theorem data_links_form_one_path_witness :
    (main 31 ["basys3", "out4", "in4"]).st.stdout.filterMap Line.datOutOf
      = List.range (names ["basys3", "out4", "in4"]).length :=
  (data_links_form_one_path 31 ["basys3", "out4", "in4"] (by decide) (by decide)
    (by decide) (by decide)).2.1

/-! ## The catalog is well formed (C23) -/

/-- C23: the table `pdesc` has 47 rows; their names are pairwise distinct,
so that two rows with the same name are the same row and a search can match
one row at most; the driver ID of the row at position `j`, counted from 0,
is `j + 1`, hence the IDs are pairwise distinct, positive and below `2^16`;
every pin count is 0, 4 or 8; and every direction mask is below
`2^npins`. -/
theorem pdesc_well_formed :
    pdesc.length = 47 ∧ NPERI = 47 ∧
    (pdesc.map PDESC.periname).Nodup ∧
    (∀ d ∈ pdesc, ∀ e ∈ pdesc, d.periname = e.periname → d = e) ∧
    pdesc.map PDESC.drivid = (List.range 47).map (fun j => j + 1) ∧
    ((pdesc.map PDESC.drivid).Nodup ∧ ∀ d ∈ pdesc, 0 < d.drivid ∧ d.drivid < 2 ^ 16) ∧
    (∀ d ∈ pdesc, d.npins = 0 ∨ d.npins = 4 ∨ d.npins = 8) ∧
    (∀ d ∈ pdesc, d.dirs < 2 ^ d.npins) := by
  decide

/-! ## The shape of every run -/

theorem lookup_mem (peri : String) (d : PDESC) (h : lookup peri = some d) : d ∈ pdesc := by
  unfold lookup at h
  split at h
  · cases h
  · exact List.getElem?_mem h

/-- Whatever the tokens are and however the loop ends, the calls made are
those for a list of catalog rows, and the output is their text. -/
theorem mainLoop_shape (mx : Int) (toks : List String) (st : MainState) :
    ∃ ds : List PDESC, (∀ d ∈ ds, d ∈ pdesc) ∧
      (mainLoop mx toks st).1.calls = st.calls ++ callsFrom st.slot st.pin ds ∧
      (mainLoop mx toks st).1.stdout
        = st.stdout ++ (callsFrom st.slot st.pin ds).flatMap (perilistOf mx) := by
  induction toks generalizing st with
  | nil => exact ⟨[], by simp, by simp [mainLoop, callsFrom], by simp [mainLoop, callsFrom]⟩
  | cons t ts ih =>
    simp only [mainLoop]
    split
    · exact ⟨[], by simp, by simp [callsFrom], by simp [callsFrom]⟩
    · split
      · exact ih st
      · split
        · exact ⟨[], by simp, by simp [callsFrom], by simp [callsFrom]⟩
        · next d hd =>
          have hm := lookup_mem t d hd
          split
          · refine ⟨[d], ?_, ?_, ?_⟩
            · intro e he
              rw [List.mem_singleton.mp he]
              exact hm
            · simp [emit, callsFrom]
            · simp [emit, callsFrom, perilistOf]
          · obtain ⟨ds, hds, hc, ho⟩ := ih (advance d (emit mx d st))
            refine ⟨d :: ds, ?_, ?_, ?_⟩
            · intro e he
              rcases List.mem_cons.mp he with rfl | h
              · exact hm
              · exact hds e h
            · rw [hc]
              simp [advance, emit, callsFrom]
            · rw [ho]
              simp [advance, emit, callsFrom, perilistOf]

theorem main_shape (mx : Int) (toks : List String) :
    ∃ (ds : List PDESC) (after : List Line), (∀ d ∈ ds, d ∈ pdesc) ∧
      (main mx toks).st.calls = callsFrom 0 0 ds ∧
      (main mx toks).st.stdout = (callsFrom 0 0 ds).flatMap (perilistOf mx) ++ after ∧
      ∀ l ∈ after, l.afterLoop = true := by
  obtain ⟨ds, hds, hc, ho⟩ := mainLoop_shape mx toks initState
  unfold main
  rcases hr : mainLoop mx toks initState with ⟨st, e⟩
  rw [hr] at hc ho
  simp only [initState, List.nil_append] at hc ho
  cases e with
  | some e =>
    refine ⟨ds, [], hds, hc, ?_, by simp⟩
    simp only [List.append_nil]
    exact ho
  | none =>
    refine ⟨ds, stitch st.slot ++ idTable st.drividtbl, hds, hc, ?_, ?_⟩
    · simp only [ho, List.append_assoc]
    · intro l hl
      rcases List.mem_append.mp hl with h | h
      · exact stitch_afterLoop _ l h
      · exact idTable_afterLoop _ l h

theorem pdesc_npins_mod_four : ∀ d ∈ pdesc, d.npins % 4 = 0 := by
  decide

theorem callsFrom_rows (slot pin : Nat) (ds : List PDESC) (hds : ∀ d ∈ ds, d ∈ pdesc)
    (hpin : pin % 4 = 0) :
    ∀ c ∈ callsFrom slot pin ds, c.startpin % 4 = 0 ∧
      ∃ d ∈ pdesc, c.dirs = d.dirs ∧ c.numpins = d.npins ∧ c.peri = d.incname := by
  induction ds generalizing slot pin with
  | nil => simp [callsFrom]
  | cons d ds ih =>
    have hd := hds d (List.mem_cons_self _ _)
    have h4 := pdesc_npins_mod_four d hd
    intro c hc
    simp only [callsFrom, List.mem_cons] at hc
    rcases hc with rfl | hc
    · exact ⟨hpin, d, hd, rfl, rfl, rfl⟩
    · exact ih (slot + 1) (pin + d.npins) (fun e he => hds e (List.mem_cons_of_mem _ he))
        (by omega) c hc

theorem filter_eq_singleton_of_nodup {α β : Type} [DecidableEq β] (f : α → Option β)
    (l : List α) (b : α) (q : β) (hn : (l.filterMap f).Nodup) (hb : b ∈ l)
    (hq : f b = some q) :
    l.filter (fun x => decide (f x = some q)) = [b] := by
  induction l with
  | nil => simp at hb
  | cons x xs ih =>
    by_cases hx : f x = some q
    · have hn2 : (q :: xs.filterMap f).Nodup := by
        simpa [List.filterMap_cons, hx] using hn
      have hnot : q ∉ xs.filterMap f := (List.nodup_cons.mp hn2).1
      have hnone : ∀ y ∈ xs, f y ≠ some q := by
        intro y hy hfy
        exact hnot (List.mem_filterMap.mpr ⟨y, hy, hfy⟩)
      have hbx : b = x := by
        rcases List.mem_cons.mp hb with h | h
        · exact h
        · exact absurd hq (hnone b h)
      subst hbx
      rw [List.filter_cons, if_pos (by simpa using hx)]
      congr 1
      rw [List.filter_eq_nil_iff]
      intro y hy
      simpa using hnone y hy
    · have hn2 : (xs.filterMap f).Nodup := by
        cases hfx : f x with
        | none => simpa [List.filterMap_cons, hfx] using hn
        | some v =>
          have : (v :: xs.filterMap f).Nodup := by
            simpa [List.filterMap_cons, hfx] using hn
          exact (List.nodup_cons.mp this).2
      have hbxs : b ∈ xs := by
        rcases List.mem_cons.mp hb with h | h
        · subst h
          exact absurd hq hx
        · exact h
      rw [List.filter_cons, if_neg (by simpa using hx)]
      exact ih hn2 hbxs

/-! ## Pins up to the board bound (C5) -/

/-- C5: for each bound `MX_PCPIN` of the board headers (59, 31, 31, 33), in
every run of `main`, for every `perilist` call `c` made for a slot other
than 0 (its `dirs` and `numpins` are those of a catalog row) and every pin
position `p` below `c.numpins` with `c.startpin + p` not above `MX_PCPIN`:
exactly one line of the output, and exactly one line of the text of that
call, binds the physical pin `c.startpin + p`.  It is the output binding
(pin `p` of the peripheral drives `PCPIN[startpin + p]`) when bit `p` of
`dirs` is set, and the input binding (`PCPIN[startpin + p]` drives pin `p`)
when it is clear. -/
theorem pins_up_to_the_bound_are_bound_once (mx : Int) (toks : List String) (c : Call)
    (p : Nat) (hmx : mx ∈ boardBounds) (hc : c ∈ (main mx toks).st.calls)
    (hslot : c.addr ≠ 0) (hp : p < c.numpins)
    (hle : ((c.startpin + p : Nat) : Int) ≤ mx) :
    (∃ d ∈ pdesc, c.dirs = d.dirs ∧ c.numpins = d.npins ∧ c.peri = d.incname) ∧
    (main mx toks).st.stdout.filter
        (fun l => decide (l.physPin = some (c.startpin + p)))
      = [if c.dirs &&& (1 <<< p) ≠ 0 then Line.pinOut (c.startpin + p) c.addr p
          else Line.pinIn c.addr p (c.startpin + p)] ∧
    (perilistOf mx c).filter (fun l => decide (l.physPin = some (c.startpin + p)))
      = [if c.dirs &&& (1 <<< p) ≠ 0 then Line.pinOut (c.startpin + p) c.addr p
          else Line.pinIn c.addr p (c.startpin + p)] := by
  obtain ⟨ds, after, hds, hcalls, hout, hafter⟩ := main_shape mx toks
  rw [hcalls] at hc
  obtain ⟨h4, hrow⟩ := callsFrom_rows 0 0 ds hds rfl c hc
  have hmx4 : mx % 4 ≠ 0 := by
    simp only [boardBounds, List.mem_cons, List.mem_singleton, List.not_mem_nil,
      or_false] at hmx
    rcases hmx with rfl | rfl | rfl | rfl <;> decide
  have hstart : (c.startpin : Int) + 1 ≤ mx := by
    push_cast at hle
    omega
  have hloop := pinLoop_of_le mx c.addr c.startpin c.dirs c.numpins 0 hstart
  simp only [Nat.zero_add] at hloop
  have hphys : (if c.dirs &&& (1 <<< p) ≠ 0 then Line.pinOut (c.startpin + p) c.addr p
      else Line.pinIn c.addr p (c.startpin + p)).physPin = some (c.startpin + p) := by
    split <;> rfl
  have hmem : (if c.dirs &&& (1 <<< p) ≠ 0 then Line.pinOut (c.startpin + p) c.addr p
      else Line.pinIn c.addr p (c.startpin + p)) ∈ perilistOf mx c := by
    have hin : (if c.dirs &&& (1 <<< p) ≠ 0 then Line.pinOut (c.startpin + p) c.addr p
        else Line.pinIn c.addr p (c.startpin + p))
        ∈ (perilist mx c.addr c.startpin c.dirs c.numpins c.peri).filter Line.isPin := by
      rw [perilist_filter_isPin, if_neg hslot, hloop]
      exact List.mem_map.mpr ⟨p, List.mem_range.mpr hp, rfl⟩
    exact (List.mem_filter.mp hin).1
  refine ⟨hrow, ?_, ?_⟩
  · apply filter_eq_singleton_of_nodup Line.physPin _ _ _ ?_ ?_ hphys
    · rw [hout, List.filterMap_append]
      have hnil : after.filterMap Line.physPin = [] := by
        rw [List.filterMap_eq_nil_iff]
        intro l hl
        have := hafter l hl
        cases l <;> first | rfl | cases this
      rw [hnil, List.append_nil]
      exact (callsFrom_physPin_nodup mx ds 0 0).1
    · rw [hout]
      exact List.mem_append_left _ (List.mem_flatMap.mpr ⟨c, hc, hmem⟩)
  · exact filter_eq_singleton_of_nodup Line.physPin _ _ _
      (perilist_physPin_range mx c.addr c.startpin c.dirs c.numpins c.peri).1 hmem hphys

/-- Witness of C5: on `stepxo2`, slot 9 starts at pin 32 and `PCPIN[32]` is
bound once, as an output. -/
theorem pins_up_to_the_bound_are_bound_once_witness :
    (main 33 ("stpxo2" :: List.replicate 9 "out4")).st.stdout.filter
        (fun l => decide (l.physPin = some 32))
      = [Line.pinOut 32 9 0] :=
  (pins_up_to_the_bound_are_bound_once 33 ("stpxo2" :: List.replicate 9 "out4")
    ⟨9, 32, 0xf, 4, "out4"⟩ 0 (by decide) (by decide) (by decide) (by decide)
    (by decide)).2.1

/-! ## Tokens longer than `peri` (C1, C9, C15) -/

/-- C1, the code at the failing input: the tokens are `basys3`, a comment of
32 characters and `out4`; the accepted names `basys3` and `out4` are catalog
names.  `fscanf("%s", peri)` stores the comment and its NUL in the 20 bytes
of `peri`, past the end of the array, before the test for `#` is reached.
The run is left there: one `perilist` call has been made, for `basys3` as
slot 0, and `out4`, the accepted name number 1, is not emitted as slot 1. -/
theorem long_comment_loses_the_next_name :
    names ["basys3", "#aaaaaaaaaaaaaaaaaaaaaaaaaaaaaaa", "out4"]
      = ["basys3", "out4"] ∧
    (∀ t ∈ names ["basys3", "#aaaaaaaaaaaaaaaaaaaaaaaaaaaaaaa", "out4"],
      ∃ d ∈ pdesc, d.periname = t) ∧
    String.length "#aaaaaaaaaaaaaaaaaaaaaaaaaaaaaaa" = 32 ∧
    (main 31 ["basys3", "#aaaaaaaaaaaaaaaaaaaaaaaaaaaaaaa", "out4"]).exit
      = Exit.periOverrun "#aaaaaaaaaaaaaaaaaaaaaaaaaaaaaaa" ∧
    (main 31 ["basys3", "#aaaaaaaaaaaaaaaaaaaaaaaaaaaaaaa", "out4"]).exit.code = none ∧
    (main 31 ["basys3", "#aaaaaaaaaaaaaaaaaaaaaaaaaaaaaaa", "out4"]).st.calls.map Call.addr
      = [0] ∧
    (main 31 ["basys3", "#aaaaaaaaaaaaaaaaaaaaaaaaaaaaaaa", "out4"]).st.stdout.filterMap
        Line.instOf = [(0, "basys3")] := by
  decide

/-- C9, the code at the failing input: the tokens are `basys3`, a comment of
32 characters and `OUT4`, which is no catalog name.  The run does not reach
`OUT4`: `fscanf("%s", peri)` overruns `peri` with the comment, so the run
does not end with the diagnostic for `OUT4` and exit status 1.  The same
happens when the unknown token itself has 20 characters. -/
theorem long_token_hides_the_unknown_name :
    (∀ d ∈ pdesc, d.periname ≠ "OUT4") ∧
    (main 31 ["basys3", "#aaaaaaaaaaaaaaaaaaaaaaaaaaaaaaa", "OUT4"]).exit
      = Exit.periOverrun "#aaaaaaaaaaaaaaaaaaaaaaaaaaaaaaa" ∧
    (main 31 ["basys3", "#aaaaaaaaaaaaaaaaaaaaaaaaaaaaaaa", "OUT4"]).exit
      ≠ Exit.unknownPeripheral "OUT4" ∧
    (main 31 ["basys3", "#aaaaaaaaaaaaaaaaaaaaaaaaaaaaaaa", "OUT4"]).exit.code ≠ some 1 ∧
    ("abcdefghijklmnopqrst".length = 20 ∧
      (∀ d ∈ pdesc, d.periname ≠ "abcdefghijklmnopqrst") ∧
      (main 31 ["basys3", "abcdefghijklmnopqrst"]).exit
        = Exit.periOverrun "abcdefghijklmnopqrst" ∧
      (main 31 ["basys3", "abcdefghijklmnopqrst"]).exit.code ≠ some 1) := by
  decide

/-- C15, the code at the failing input: putting a comment of 32 characters
between `basys3` and `out4` changes the run.  Without it the run ends with
`exit(0)` after the slots 0 and 1; with it `fscanf("%s", peri)` overruns
`peri`, and the run is left after slot 0. -/
theorem long_comment_changes_the_run :
    names ["basys3", "#aaaaaaaaaaaaaaaaaaaaaaaaaaaaaaa", "out4"]
      = names ["basys3", "out4"] ∧
    main 31 ["basys3", "#aaaaaaaaaaaaaaaaaaaaaaaaaaaaaaa", "out4"]
      ≠ main 31 ["basys3", "out4"] ∧
    ((main 31 ["basys3", "out4"]).exit = Exit.success ∧
      (main 31 ["basys3", "out4"]).st.calls.map Call.addr = [0, 1]) ∧
    ((main 31 ["basys3", "#aaaaaaaaaaaaaaaaaaaaaaaaaaaaaaa", "out4"]).exit
        = Exit.periOverrun "#aaaaaaaaaaaaaaaaaaaaaaaaaaaaaaa" ∧
      (main 31 ["basys3", "#aaaaaaaaaaaaaaaaaaaaaaaaaaaaaaa", "out4"]).st.calls.map Call.addr
        = [0]) := by
  decide

end Pccore
